import Mathlib

/-!
# Verification of the Tetris rules engine (src/tetris/main.cc)

Shallow embedding of the game-engine core of the ncurses Tetris implementation:
the `Context` class (board, active/next piece, score, drop timer) and the pure
piece-geometry helpers (`kTetrominos`, `RotateIndex4x4`).  The rendering /
input layer (`Tetris` class, `main`) is out of scope, matching the spec.

Modelling conventions:
* C++ `int` is modelled as `ℤ`; `%` on `int` is C++ truncated remainder,
  i.e. `Int.tmod`, and `/` is `Int.tdiv`.
* The board `char* field_` is a flat array indexed by `cols * row + col`;
  we model it as a total function `ℤ → ℕ` on flat indices (cell value `0`
  is `Cell::kEmpty`, values `1..7` are the shape ids).  Reads and writes at
  a flat index match the C++ pointer arithmetic exactly (including the
  aliasing a column outside `[0, cols)` would produce).
* `Put`/`Remove` write the same value to every footprint cell, so the
  sequential C++ loops are modelled by a single functional update.
* The unbounded `while (true)` retry loop of `Context::RotateTo` is modelled
  with explicit fuel (`RotateLoop`); `rotateLoop_eight_none` shows that the
  loop state is eventually periodic with period 4, so fuel 8 is exact:
  if 8 iterations fail, the C++ loop runs forever.
* `Context::CheckLines` re-tests the same row after a shift
  (`ShiftLines(row++)` followed by the loop's `row--`), which does not
  terminate when row 0 is completely filled (the shift is then a no-op);
  it is modelled with fuel (`CheckAux`), `none` meaning the C++ loop hangs.
* `rand() % 7 + 1` is modelled by an explicit stream `randStream : ℕ → ℕ`
  consumed at `randIdx`.
* `ticks_till_drop_` is never initialised by the constructor, so the initial
  timer value is an arbitrary parameter of `initContext`.
-/

set_option autoImplicit false

namespace Tetris

/-- A board cell / flat field: cell value `0` is `Cell::kEmpty`,
`1..7` are `kIShape .. kZShape`. -/
abbrev Field := ℤ → ℕ

/-- The `Key` enum (`kNone`, `kLeft`, `kRight`, `kClock`, `kCounter`, `kDrop`). -/
inductive Key where
  | kNone
  | kLeft
  | kRight
  | kClock
  | kCounter
  | kDrop
deriving DecidableEq

open Key

/-- The `kTetrominos` table: 16-bit occupancy masks, indexed by shape id
(0 is the empty sentinel).  Out-of-range ids (C++ undefined behaviour,
never exercised: ids are always `rand() % 7 + 1`) read as mask `0`. -/
def kTetrominos (t : ℕ) : ℕ :=
  [0b0000000000000000,
   0b0010001000100010,
   0b0010011001000000,
   0b0100011000100000,
   0b0000011001100000,
   0b0010011000100000,
   0b0000011000100010,
   0b0000011001000100].getD t 0

/-- `RotateIndex4x4(x, y, r)`: the closed-form rotation-index formulas.
C++ `%` on `int` is truncated remainder (`Int.tmod`); for `r % 4`
outside `{0,1,2,3}` (a negative `r`) the `switch` falls through to
`return 0`. -/
def RotateIndex4x4 (x y r : ℤ) : ℤ :=
  if r.tmod 4 = 0 then y * 4 + x
  else if r.tmod 4 = 1 then 12 + y - x * 4
  else if r.tmod 4 = 2 then 15 - y * 4 - x
  else if r.tmod 4 = 3 then 3 - y + x * 4
  else 0

/-- The `Tetromino` struct: `{type, row, col, rotate}`. -/
structure Tetromino where
  type : ℕ
  row : ℤ
  col : ℤ
  rotate : ℤ
deriving DecidableEq

/-- `kTetrominos[t.type][RotateIndex4x4(x, y, t.rotate)]`: does the piece
occupy local frame cell `(x, y)` (`x` = row offset, `y` = column offset)? -/
def maskBit (t : Tetromino) (x y : ℤ) : Bool :=
  (kTetrominos t.type).testBit (RotateIndex4x4 x y t.rotate).toNat

/-- The engine state: the data members of the C++ `Context` class, plus the
modelled randomness stream. -/
structure Context where
  rows : ℤ
  cols : ℤ
  score : ℤ
  key : Key
  curr : Tetromino
  next : Tetromino
  field : Field
  ticksTillDrop : ℤ
  randStream : ℕ → ℕ
  randIdx : ℕ

namespace Context

/-- `Context::CellAt`: `field_[cols * row + col]`. -/
def CellAt (c : Context) (row col : ℤ) : ℕ :=
  c.field (c.cols * row + col)

/-- `Context::IsValidCell`. -/
def IsValidCell (c : Context) (row col : ℤ) : Bool :=
  decide (0 ≤ row ∧ row < c.rows ∧ 0 ≤ col ∧ col < c.cols)

/-- `Context::IsConsistent`: every occupied cell of the active piece is
in bounds and empty on the board.  (`CellAt` is only evaluated when
`IsValidCell` holds, by `||` short-circuit in the source.) -/
def IsConsistent (c : Context) : Bool :=
  (List.range 4).all fun x => (List.range 4).all fun y =>
    !maskBit c.curr x y ||
      (c.IsValidCell (c.curr.row + x) (c.curr.col + y) &&
        decide (c.CellAt (c.curr.row + x) (c.curr.col + y) = 0))

end Context

/-- The set of flat field indices covered by the occupied cells of piece `t`
on a board with `cols` columns: indices `cols * (row + x) + (col + y)` for
occupied frame cells `(x, y)` — exactly the indices `Put`/`Remove` write. -/
def FootprintB (cols : ℤ) (t : Tetromino) (i : ℤ) : Bool :=
  (List.range 4).any fun x => (List.range 4).any fun y =>
    maskBit t x y && decide (i = cols * (t.row + x) + (t.col + y))

/-- Field-level effect of `Context::Put`: write the shape id at every
footprint cell. -/
def putF (cols : ℤ) (t : Tetromino) (f : Field) : Field := fun i =>
  if FootprintB cols t i then t.type else f i

/-- Field-level effect of `Context::Remove`: write `kEmpty` at every
footprint cell. -/
def eraseF (cols : ℤ) (t : Tetromino) (f : Field) : Field := fun i =>
  if FootprintB cols t i then 0 else f i

namespace Context

/-- `Context::Put`. -/
def Put (c : Context) : Context :=
  { c with field := putF c.cols c.curr c.field }

/-- `Context::Remove`. -/
def Remove (c : Context) : Context :=
  { c with field := eraseF c.cols c.curr c.field }

/-- `Context::MoveTo(dir)`: erase, shift the column, revert if inconsistent,
redraw. -/
def MoveTo (c : Context) (dir : ℤ) : Context :=
  let c1 := c.Remove
  let c2 := { c1 with curr := { c1.curr with col := c1.curr.col + dir } }
  let c3 := if c2.IsConsistent then c2
            else { c2 with curr := { c2.curr with col := c2.curr.col - dir } }
  c3.Put

/-- `Context::Drop` (soft drop): erase, advance one row, revert if
inconsistent, redraw. -/
def Drop (c : Context) : Context :=
  let c1 := c.Remove
  let c2 := { c1 with curr := { c1.curr with row := c1.curr.row + 1 } }
  let c3 := if c2.IsConsistent then c2
            else { c2 with curr := { c2.curr with row := c2.curr.row - 1 } }
  c3.Put

/-- One iteration of the `while (true)` body of `Context::RotateTo`:
advance the rotation by `dir` (C++ truncated `% 4`), then probe column
offsets `0`, `-1`, `+1`; `Sum.inl` is a successful probe (`break`),
`Sum.inr` is the state at the end of a fully failed iteration (the column
back at its original value, the loop about to re-enter). -/
def rotIter (dir : ℤ) (c : Context) : Context ⊕ Context :=
  let c1 := { c with curr := { c.curr with rotate := (c.curr.rotate + dir).tmod 4 } }
  if c1.IsConsistent then .inl c1 else
  let c2 := { c1 with curr := { c1.curr with col := c1.curr.col - 1 } }
  if c2.IsConsistent then .inl c2 else
  let c3 := { c2 with curr := { c2.curr with col := c2.curr.col + 2 } }
  if c3.IsConsistent then .inl c3 else
  .inr { c3 with curr := { c3.curr with col := c3.curr.col - 1 } }

/-- The retry loop of `Context::RotateTo`, with fuel.  `none` means the fuel
ran out with every probe inconsistent; `rotateLoop_eight_none` below shows
the loop state is periodic from iteration 4 on, so with fuel 8 `none` is
exactly the C++ livelock. -/
def RotateLoop (dir : ℤ) : ℕ → Context → Option Context
  | 0, _ => none
  | n + 1, c =>
    match rotIter dir c with
    | .inl c' => some c'
    | .inr c' => RotateLoop dir n c'

/-- The state at the end of a fully failed iteration of the `RotateTo`
retry loop: the rotation advanced by `dir` (C++ truncated `% 4`) and the
column back at its original value (the probe offsets `-1 + 2 - 1` cancel).
This is the state `rotIter` returns in `Sum.inr`. -/
def rotStep (dir : ℤ) (c : Context) : Context :=
  { c with curr := { c.curr with rotate := (c.curr.rotate + dir).tmod 4 } }

/-- `Context::RotateTo(dir)`: erase, run the retry loop, redraw.  `none`
models the unbounded-retry livelock of the source. -/
def RotateTo (c : Context) (dir : ℤ) : Option Context :=
  (RotateLoop dir 8 c.Remove).map Put

/-- `Context::HandleKey`. -/
def HandleKey (c : Context) : Option Context :=
  match c.key with
  | kLeft => some (c.MoveTo (-1))
  | kRight => some (c.MoveTo 1)
  | kDrop => some c.Drop
  | kClock => c.RotateTo 1
  | kCounter => c.RotateTo (-1)
  | kNone => some c

/-- `Context::LineFilled(row)`: every column of the row is non-empty.
(For `cols ≤ 0` the loop body never runs and the function returns `true`,
as in the source.) -/
def LineFilled (c : Context) (row : ℤ) : Bool :=
  (List.range c.cols.toNat).all fun col => decide (c.CellAt row col ≠ 0)

end Context

/-- Field-level effect of `Context::ShiftLines(row)`: for `row ≥ 1`, each
flat index in row `r`, `1 ≤ r ≤ row`, receives row `r - 1`'s cell, row 0 is
cleared, everything else is untouched.  The C++ loop runs `i` from `row - 1`
down to `0`, so for `row ≤ 0` it does nothing. -/
def shiftF (cols row : ℤ) (f : Field) : Field := fun p =>
  if row ≤ 0 then f p
  else if 0 ≤ p ∧ p < cols then 0
  else if cols ≤ p ∧ p < cols * (row + 1) then f (p - cols)
  else f p

namespace Context

/-- `Context::ShiftLines(row)`. -/
def ShiftLines (c : Context) (row : ℤ) : Context :=
  { c with field := shiftF c.cols row c.field }

/-- The scan loop of `Context::CheckLines`, with fuel: scan rows from the
bottom up; on a filled row, shift and re-test the same row index
(`ShiftLines(row++)` followed by the loop's `row--`).  `none` means the
fuel ran out; with the fuel used by `CheckLines` this happens exactly when
the C++ loop hangs (a completely filled row 0 makes the shift a no-op). -/
def CheckAux : ℕ → Context → ℤ → ℕ → Option (Context × ℕ)
  | 0, _, _, _ => none
  | fuel + 1, c, row, lines =>
    if row < 0 then some (c, lines)
    else if c.LineFilled row then CheckAux fuel (c.ShiftLines row) row (lines + 1)
    else CheckAux fuel c (row - 1) lines

/-- Fuel that dominates the scan loop's running time whenever it terminates:
one unit per row plus one per non-empty cell (each shift at a row ≥ 1
removes at least `cols ≥ 1` non-empty cells). -/
def checkFuel (c : Context) : ℕ :=
  c.rows.toNat + (List.range (c.cols * c.rows).toNat).countP (fun p => c.field p ≠ 0) + 1

/-- `Context::CheckLines`: erase the piece, scan and clear filled rows,
redraw, return the cleared-lines count alongside the new state. -/
def CheckLines (c : Context) : Option (Context × ℕ) :=
  let c1 := c.Remove
  (CheckAux (checkFuel c1) c1 (c.rows - 1) 0).map fun r => (r.1.Put, r.2)

/-- `Context::kLineMultiplier`: the scoring table `{0, 40, 100, 300, 1200}`.
An index beyond 4 is an out-of-bounds read in the source (never exercised:
a tick clears at most 4 lines); it is modelled as 0. -/
def kLineMultiplier (lines : ℕ) : ℤ :=
  [0, 40, 100, 300, 1200].getD lines 0

/-- `Context::ScoreUp`. -/
def ScoreUp (c : Context) (lines : ℕ) : Context :=
  { c with score := c.score + kLineMultiplier lines }

/-- The top-two-rows test of `Context::GameOver`: some cell in row 0 or
row 1 is non-empty. -/
def TopOccupied (c : Context) : Bool :=
  (List.range 2).any fun row =>
    (List.range c.cols.toNat).any fun col => decide (c.CellAt row col ≠ 0)

/-- `Context::GameOver`: erase the piece and inspect the top two rows.
On game over the function returns early with the piece still erased;
otherwise the piece is redrawn. -/
def GameOver (c : Context) : Bool × Context :=
  let c1 := c.Remove
  if c1.TopOccupied then (true, c1) else (false, c1.Put)

/-- `Context::Next`: promote the buffered piece and draw a fresh random one
at the spawn position (`row 0`, `col = cols / 2 - 2`, rotation 0; C++ `/`
on `int` truncates, `Int.tdiv`). -/
def NextPiece (c : Context) : Context :=
  { c with
    curr := c.next
    next := { type := c.randStream c.randIdx % 7 + 1
              row := 0
              col := c.cols.tdiv 2 - 2
              rotate := 0 }
    randIdx := c.randIdx + 1 }

/-- The gravity step of `Context::Update`: `ticks_till_drop_-- <= 0` tests
the old value and decrements unconditionally; on a successful descent the
timer is reset to `kTicksTillDrop = 500`; on a failed descent the piece is
locked (`Put` at the reverted row) and `Next()` spawns. -/
def GravityStep (c : Context) : Context :=
  let t := c.ticksTillDrop
  let c0 := { c with ticksTillDrop := t - 1 }
  if t ≤ 0 then
    let c1 := c0.Remove
    let c2 := { c1 with curr := { c1.curr with row := c1.curr.row + 1 } }
    if c2.IsConsistent then
      Put { c2 with ticksTillDrop := 500 }
    else
      NextPiece (Put { c2 with curr := { c2.curr with row := c2.curr.row - 1 } })
  else c0

/-- `Context::Update`, with the cleared-lines count of the tick exposed:
gravity, command dispatch, line clearing, scoring, game-over check.
`none` models the two non-terminating paths of the source (rotation-retry
livelock, line-clear scan stuck on a filled row 0). -/
def UpdateL (c : Context) : Option (Bool × Context × ℕ) :=
  (c.GravityStep.HandleKey).bind fun c2 =>
    (c2.CheckLines).map fun r =>
      (!(((r.1.ScoreUp r.2).GameOver).1), ((r.1.ScoreUp r.2).GameOver).2, r.2)

/-- `Context::Update`: returns whether the game continues, and the new
state. -/
def Update (c : Context) : Option (Bool × Context) :=
  c.UpdateL.map fun r => (r.1, r.2.1)

end Context

/-- The state the C++ constructor leaves the engine in: empty board,
score 0, and two `Next()` calls, so the active and buffered pieces are the
spawn pieces drawn from the first two random values.  `t0` is the (never
initialised) initial value of `ticks_till_drop_`. -/
def initContext (rows cols t0 : ℤ) (f : ℕ → ℕ) : Context :=
  { rows := rows
    cols := cols
    score := 0
    key := Key.kNone
    curr := { type := f 0 % 7 + 1, row := 0, col := cols.tdiv 2 - 2, rotate := 0 }
    next := { type := f 1 % 7 + 1, row := 0, col := cols.tdiv 2 - 2, rotate := 0 }
    field := fun _ => 0
    ticksTillDrop := t0
    randStream := f
    randIdx := 2 }

/-- Engine states reachable during play: the constructor state (with board
dimensions at least the spawn frame, as in the 22×10 default), followed by
any number of game-continuing ticks, the driver choosing the key before
each tick. -/
inductive Reachable : Context → Prop
  | init (rows cols t0 : ℤ) (f : ℕ → ℕ) (hr : 4 ≤ rows) (hc : 5 ≤ cols) :
      Reachable (initContext rows cols t0 f)
  | step (c c' : Context) (k : Key) (lines : ℕ) :
      Reachable c →
      Context.UpdateL { c with key := k } = some (true, c', lines) →
      Reachable c'

/-- `f` occupies no cell that `g` does not: pointwise monotonicity of
non-emptiness on flat indices. -/
def FieldSub (f g : Field) : Prop := ∀ i : ℤ, f i ≠ 0 → g i ≠ 0

/-- The occupied frame cells `(x, y)` of a piece (at most 4 of them, one
per set mask bit). -/
def maskPairs (t : Tetromino) : Finset (ℕ × ℕ) :=
  (Finset.range 4 ×ˢ Finset.range 4).filter fun p => maskBit t p.1 p.2 = true

/-- The board rows touched by the occupied cells of a piece. -/
def fpRows (t : Tetromino) : Finset ℤ :=
  (maskPairs t).image fun p => t.row + p.1

/-- `(x, y) ↦ (y, 3 - x)`: one 90° step of the 4×4 local frame, the
geometric reading of the `RotateIndex4x4` formulas. -/
def rot90 (p : ℤ × ℤ) : ℤ × ℤ := (p.2, 3 - p.1)

namespace Context

/-- `c'` agrees with `c` on every component except possibly the board. -/
def SameExceptField (c c' : Context) : Prop := c' = { c with field := c'.field }

/-- The number of filled rows with index in `[0, row]`. -/
def filledCard (c : Context) (row : ℤ) : ℕ :=
  ((Finset.Icc 0 row).filter fun r => c.LineFilled r = true).card

/-- No row of the board is completely filled once the active piece is
erased — the state every game-continuing tick leaves behind. -/
def NoFilledErased (c : Context) : Bool :=
  (List.range c.rows.toNat).all fun r => !(c.Remove.LineFilled r)

end Context

/-- Every occupied cell of piece `t` lies in a valid column of a
`cols`-wide board. -/
def colBoundedB (cols : ℤ) (t : Tetromino) : Bool :=
  (List.range 4).all fun x => (List.range 4).all fun y =>
    !maskBit t x y || decide (0 ≤ t.col + y ∧ t.col + y < cols)

/-- Piece `t` has the shape `Next()` gives a fresh piece on a `cols`-wide
board: spawn position, rotation 0, shape id in `1..7`. -/
def spawnShapedP (cols : ℤ) (t : Tetromino) : Prop :=
  t.row = 0 ∧ t.col = cols.tdiv 2 - 2 ∧ t.rotate = 0 ∧ 1 ≤ t.type ∧ 7 ≥ t.type

namespace Context

/-- Every occupied cell of the active piece lies in a valid board column. -/
def PieceColBounded (c : Context) : Bool := colBoundedB c.cols c.curr

/-- The active piece's cells are drawn on the board (the state `Put`
leaves behind). -/
def PieceDrawn (c : Context) : Bool :=
  (List.range 4).all fun x => (List.range 4).all fun y =>
    !maskBit c.curr x y ||
      decide (c.field (c.cols * (c.curr.row + x) + (c.curr.col + y)) = c.curr.type)

/-- The buffered next piece has the shape `Next()` gives it: spawn
position, rotation 0, and a shape id in `1..7`. -/
def SpawnShaped (c : Context) : Prop := spawnShapedP c.cols c.next

/-- The play invariant: board dimensions admit the spawn frame, no filled
row survives a tick (piece erased), the active piece's occupied cells are
in valid columns, the next piece is spawn-shaped, and the score is
non-negative. -/
def Inv (c : Context) : Prop :=
  4 ≤ c.rows ∧ 5 ≤ c.cols ∧ c.NoFilledErased = true ∧
    c.PieceColBounded = true ∧ c.SpawnShaped ∧ 0 ≤ c.score

/-- The `RotateTo` retry loop never exits, whatever the fuel: the C++
`while (true)` livelocks. -/
def RotateDiverges (c : Context) (dir : ℤ) : Prop :=
  ∀ n : ℕ, RotateLoop dir n c.Remove = none

/-- The `CheckLines` scan loop never exits, whatever the fuel: the C++
`for` loop with `ShiftLines(row++)` livelocks. -/
def CheckDiverges (c : Context) : Prop :=
  ∀ fuel lines : ℕ, CheckAux fuel c.Remove (c.rows - 1) lines = none

/-- The first candidate the `RotateTo(1)` loop probes: the erased board
with the rotation advanced one step, at the unshifted column. -/
def FirstProbe (c : Context) : Context :=
  { c.Remove with curr := { c.curr with rotate := (c.curr.rotate + 1).tmod 4 } }

/-- The first probe of `RotateTo(1)` fits: the rotation succeeds with no
wall-kick column shift. -/
def FirstFit (c : Context) : Bool := c.FirstProbe.IsConsistent

/-- The state `RotateTo(1)` produces when its first probe fits. -/
def stepCW (c : Context) : Context := c.FirstProbe.Put

/-- Four successive `RotateTo(1)` commands. -/
def fourCW (c : Context) : Option Context :=
  (((c.RotateTo 1).bind (·.RotateTo 1)).bind (·.RotateTo 1)).bind (·.RotateTo 1)

end Context

/-- The piece occupies some cell in local column 0 of its 4×4 frame (so a
move to board column `-1` would place a cell at column `-1`). -/
def Tetromino.hasLeftColumnCell (t : Tetromino) : Bool :=
  (List.range 4).any fun x => maskBit t x 0

/-! ### Concrete states used by the counterexamples and witnesses

Boards are given as explicit flat-index functions; each state is coherent
(the active piece is drawn on the board unless noted). -/

/-- 6×5 board whose row 1 is completely filled and whose active O-piece is
drawn at rows 4–5, columns 2–3; timer not yet expired, no key.  The
game-over condition of claim C1 holds (row 1 is non-empty with the piece
erased), yet the tick clears row 1 and returns `true`. -/
def cexC1 : Context :=
  { rows := 6, cols := 5, score := 0, key := Key.kNone
    curr := ⟨4, 3, 1, 0⟩
    next := ⟨1, 0, 0, 0⟩
    field := fun i =>
      if 5 ≤ i ∧ i < 10 then 1
      else if i = 22 ∨ i = 23 ∨ i = 27 ∨ i = 28 then 4 else 0
    ticksTillDrop := 5, randStream := fun _ => 0, randIdx := 2 }

/-- The state `cexC1` ticks to. -/
def cexC1result : Context := ((cexC1.UpdateL).map fun r => r.2.1).getD cexC1

/-- A freshly constructed 4×5 engine with a large drop-timer value: the
start of the play that reaches the livelock state `cexC2`.  Every board
write of that play is in bounds (from the second tick on the active piece
occupies no cells, so `Put`/`Remove` write nothing at all). -/
def cexC2init : Context := initContext 4 5 100 (fun _ => 0)

/-- The state one `RotateCounterClockwise` tick after `cexC2init`: the
C++ truncated `%` leaves the active piece at rotation `-1`, where it
occupies no cells. -/
def cexC2a : Context :=
  ((Context.UpdateL { cexC2init with key := Key.kCounter }).map fun r => r.2.1).getD cexC2init

/-- One `Drop` tick after `cexC2a`: the cell-less piece descends freely
to row 1. -/
def cexC2b : Context :=
  ((Context.UpdateL { cexC2a with key := Key.kDrop }).map fun r => r.2.1).getD cexC2a

/-- One `Drop` tick after `cexC2b`: frame row 2. -/
def cexC2c : Context :=
  ((Context.UpdateL { cexC2b with key := Key.kDrop }).map fun r => r.2.1).getD cexC2b

/-- One `Drop` tick after `cexC2c`: frame row 3. -/
def cexC2d : Context :=
  ((Context.UpdateL { cexC2c with key := Key.kDrop }).map fun r => r.2.1).getD cexC2c

/-- The reachable livelock state: one more `Drop` tick puts the active
piece's 4×4 frame at row 4 of the 4-row board, so every occupied cell of
every rotation in `{0,1,2,3}` is out of bounds at every wall-kick offset,
and a `RotateClockwise` from here cycles the retry loop forever. -/
def cexC2 : Context :=
  ((Context.UpdateL { cexC2d with key := Key.kDrop }).map fun r => r.2.1).getD cexC2d

/-- 8×10 board with locked cells at row 3, columns 3–5, and the I-piece
drawn at row 1, columns 3–6.  The first `RotateClockwise` finds the
vertical orientation blocked at offsets 0, −1, +1 and lands on the
180° orientation instead (rotation advances by 2), so four clockwise
rotations do not return the piece to its original rotation. -/
def cexC4 : Context :=
  { rows := 8, cols := 10, score := 0, key := Key.kClock
    curr := ⟨1, 0, 3, 0⟩
    next := ⟨1, 0, 3, 0⟩
    field := fun i =>
      if i = 33 ∨ i = 34 ∨ i = 35 then 2
      else if i = 13 ∨ i = 14 ∨ i = 15 ∨ i = 16 then 1 else 0
    ticksTillDrop := 5, randStream := fun _ => 0, randIdx := 2 }

/-- Empty 6×5 board with the O-piece drawn at column 0 (occupied cells in
columns 1–2): `MoveLeft` succeeds and the piece's column becomes `-1`. -/
def cexC5 : Context :=
  { rows := 6, cols := 5, score := 0, key := Key.kLeft
    curr := ⟨4, 2, 0, 0⟩
    next := ⟨1, 0, 0, 0⟩
    field := fun i => if i = 16 ∨ i = 17 ∨ i = 21 ∨ i = 22 then 4 else 0
    ticksTillDrop := 5, randStream := fun _ => 0, randIdx := 2 }

/-- 3×5 board whose row 0 is completely filled and whose active O-piece
is drawn fully in bounds at rows 1–2, columns 1–2: `ShiftLines(0)` is a
no-op, so the `CheckLines` scan re-tests the still filled row 0
forever. -/
def cexC7 : Context :=
  { rows := 3, cols := 5, score := 0, key := Key.kNone
    curr := ⟨4, 0, 0, 0⟩
    next := ⟨1, 0, 0, 0⟩
    field := fun i =>
      if 0 ≤ i ∧ i < 5 then 1
      else if i = 6 ∨ i = 7 ∨ i = 11 ∨ i = 12 then 4 else 0
    ticksTillDrop := 5, randStream := fun _ => 0, randIdx := 2 }

/-- 6×5 board with a completely filled bottom row and the O-piece drawn
higher up; the drop timer has not expired and no key is pressed, yet the
tick clears the bottom row and adds 40 to the score. -/
def cexC9 : Context :=
  { rows := 6, cols := 5, score := 0, key := Key.kNone
    curr := ⟨4, 1, 1, 0⟩
    next := ⟨1, 0, 0, 0⟩
    field := fun i =>
      if 25 ≤ i ∧ i < 30 then 1
      else if i = 12 ∨ i = 13 ∨ i = 17 ∨ i = 18 then 4 else 0
    ticksTillDrop := 5, randStream := fun _ => 0, randIdx := 2 }

/-- Empty 6×5 board with the I-piece drawn at rotation 0 and the command
`RotateCounterClockwise` pending: `(0 - 1) % 4 = -1` in C++. -/
def exC3 : Context :=
  { rows := 6, cols := 5, score := 0, key := Key.kCounter
    curr := ⟨1, 2, 0, 0⟩
    next := ⟨1, 0, 0, 0⟩
    field := fun i => if 15 ≤ i ∧ i < 19 then 1 else 0
    ticksTillDrop := 5, randStream := fun _ => 0, randIdx := 2 }

/-- 6×5 board with a locked cell at `(0,0)` and the I-piece drawn at row 3:
the tick detects game over and returns `false` with the piece erased. -/
def exC10 : Context :=
  { rows := 6, cols := 5, score := 0, key := Key.kNone
    curr := ⟨1, 2, 0, 0⟩
    next := ⟨1, 0, 0, 0⟩
    field := fun i => if i = 0 then 1 else if 15 ≤ i ∧ i < 19 then 1 else 0
    ticksTillDrop := 5, randStream := fun _ => 0, randIdx := 2 }

/-- The state `exC10` ticks to (the game-over state, piece erased). -/
def exC10result : Context := ((exC10.UpdateL).map fun r => r.2.1).getD exC10

/-- A freshly constructed 6×5 engine. -/
def wInit : Context := initContext 6 5 5 (fun _ => 0)

/-- The state `wInit` ticks to. -/
def wInitResult : Context := ((wInit.UpdateL).map fun r => r.2.1).getD wInit

/-- Empty 6×6 board with the I-piece drawn in the middle: a consistent
placement from which both rotations terminate. -/
def wC2 : Context :=
  { rows := 6, cols := 6, score := 0, key := Key.kClock
    curr := ⟨1, 1, 1, 0⟩
    next := ⟨1, 0, 1, 0⟩
    field := fun i => if 13 ≤ i ∧ i < 17 then 1 else 0
    ticksTillDrop := 5, randStream := fun _ => 0, randIdx := 2 }

/-- Empty 8×8 board with the I-piece drawn at `(2,2)`: all four clockwise
rotations succeed at their first probe. -/
def wC4 : Context :=
  { rows := 8, cols := 8, score := 0, key := Key.kClock
    curr := ⟨1, 2, 2, 0⟩
    next := ⟨1, 0, 2, 0⟩
    field := fun i => if 26 ≤ i ∧ i < 30 then 1 else 0
    ticksTillDrop := 5, randStream := fun _ => 0, randIdx := 2 }

/-- Empty 6×5 board with the I-piece drawn at column 0 (it occupies local
column 0): `MoveLeft` is rejected. -/
def wC5 : Context :=
  { rows := 6, cols := 5, score := 0, key := Key.kLeft
    curr := ⟨1, 2, 0, 0⟩
    next := ⟨1, 0, 0, 0⟩
    field := fun i => if 15 ≤ i ∧ i < 19 then 1 else 0
    ticksTillDrop := 5, randStream := fun _ => 0, randIdx := 2 }

/-- 6×5 board with two completely filled bottom rows and the O-piece drawn
at the top: `CheckLines` clears exactly 2 lines. -/
def wC7 : Context :=
  { rows := 6, cols := 5, score := 0, key := Key.kNone
    curr := ⟨4, 0, 1, 0⟩
    next := ⟨1, 0, 0, 0⟩
    field := fun i => if 20 ≤ i ∧ i < 30 then 1
      else if i = 7 ∨ i = 8 ∨ i = 12 ∨ i = 13 then 4 else 0
    ticksTillDrop := 5, randStream := fun _ => 0, randIdx := 2 }

/-- The board `wC7`'s line-clear scan leaves behind. -/
def wC7result : Context := ((wC7.CheckLines).map fun r => r.1).getD wC7

/-- A coherent quiescent state: piece drawn, no filled rows, top rows
clear, timer unexpired, no key.  A `tick(None)` only decrements the
timer. -/
def wC9 : Context :=
  { rows := 6, cols := 5, score := 0, key := Key.kNone
    curr := ⟨4, 2, 1, 0⟩
    next := ⟨1, 0, 0, 0⟩
    field := fun i => if i = 17 ∨ i = 18 ∨ i = 22 ∨ i = 23 then 4
      else if i = 29 then 3 else 0
    ticksTillDrop := 5, randStream := fun _ => 0, randIdx := 2 }

/-- The state `cexC1` ticks to, projected for the C6 witness. -/
def wC6result : Context := ((cexC1.UpdateL).map fun r => r.2.1).getD cexC1

open Context

/-! ### Arithmetic helpers: C++ truncated remainder -/

theorem tmod_neg_arg (a b : ℤ) : (-a).tmod b = -(a.tmod b) := by
  rw [Int.tmod_def, Int.tmod_def, Int.neg_tdiv]; ring

theorem tmod4_bounds (r : ℤ) : -4 < r.tmod 4 ∧ r.tmod 4 < 4 := by
  rcases le_or_lt 0 r with h | h
  · rw [Int.tmod_eq_emod h (by norm_num : (0:ℤ) ≤ 4)]; omega
  · have h2 : r = -(-r) := by ring
    rw [h2, tmod_neg_arg, Int.tmod_eq_emod (by omega : (0:ℤ) ≤ -r) (by norm_num : (0:ℤ) ≤ 4)]
    omega

theorem tmod4_small {r : ℤ} (h1 : -4 < r) (h2 : r < 4) : r.tmod 4 = r := by
  rcases le_or_lt 0 r with h | h
  · rw [Int.tmod_eq_emod h (by norm_num : (0:ℤ) ≤ 4)]; omega
  · have h3 : r = -(-r) := by ring
    rw [h3, tmod_neg_arg, Int.tmod_eq_emod (by omega : (0:ℤ) ≤ -r) (by norm_num : (0:ℤ) ≤ 4)]
    omega

theorem tmod4_tmod4 (r : ℤ) : (r.tmod 4).tmod 4 = r.tmod 4 :=
  tmod4_small (tmod4_bounds r).1 (tmod4_bounds r).2

theorem tmod4_of_nonneg {r : ℤ} (h : 0 ≤ r) : r.tmod 4 = r % 4 :=
  Int.tmod_eq_emod h (by norm_num)

/-- Bit 0 of every shape mask is clear (cell `(0,0)` at rotation 0 is
occupied by no shape), so a negative rotation — whose `RotateIndex4x4`
falls through to 0 — makes a piece occupy no cells at all. -/
theorem kTetrominos_testBit_zero (t : ℕ) : (kTetrominos t).testBit 0 = false := by
  unfold kTetrominos
  match t with
  | 0 | 1 | 2 | 3 | 4 | 5 | 6 | 7 => decide
  | n + 8 =>
    rw [List.getD_eq_default _ _ (by simp)]
    decide

theorem rotateIndex_tmod (x y r : ℤ) :
    RotateIndex4x4 x y r = RotateIndex4x4 x y (r.tmod 4) := by
  unfold RotateIndex4x4
  rw [tmod4_tmod4]

theorem maskBit_rotate_tmod (t : Tetromino) (x y : ℤ) :
    maskBit t x y = maskBit { t with rotate := t.rotate.tmod 4 } x y := by
  unfold maskBit
  simp only []
  rw [rotateIndex_tmod]

/-- A piece with a negative rotation (in `(-4, 0)`) occupies no cells. -/
theorem maskBit_neg_rotate {t : Tetromino} (h1 : -4 < t.rotate) (h2 : t.rotate < 0)
    (x y : ℤ) : maskBit t x y = false := by
  unfold maskBit RotateIndex4x4
  rw [tmod4_small h1 (by omega)]
  have e0 : ¬ t.rotate = 0 := by omega
  have e1 : ¬ t.rotate = 1 := by omega
  have e2 : ¬ t.rotate = 2 := by omega
  have e3 : ¬ t.rotate = 3 := by omega
  simp only [e0, e1, e2, e3, if_false]
  exact kTetrominos_testBit_zero t.type

/-! ### Characterizations of the boolean tests -/

theorem isConsistent_iff (c : Context) :
    c.IsConsistent = true ↔
      ∀ x y : ℕ, x < 4 → y < 4 → maskBit c.curr x y = true →
        (0 ≤ c.curr.row + (x : ℤ) ∧ c.curr.row + (x : ℤ) < c.rows ∧
         0 ≤ c.curr.col + (y : ℤ) ∧ c.curr.col + (y : ℤ) < c.cols) ∧
        c.CellAt (c.curr.row + (x : ℤ)) (c.curr.col + (y : ℤ)) = 0 := by
  unfold Context.IsConsistent Context.IsValidCell
  simp only [List.all_eq_true, List.mem_range, Bool.or_eq_true, Bool.and_eq_true,
    Bool.not_eq_true', decide_eq_true_eq]
  constructor
  · intro h x y hx hy hm
    rcases h x hx y hy with h' | h'
    · rw [hm] at h'; cases h'
    · exact ⟨⟨h'.1.1, h'.1.2.1, h'.1.2.2.1, h'.1.2.2.2⟩, h'.2⟩
  · intro h x hx y hy
    by_cases hm : maskBit c.curr x y = true
    · rcases h x y hx hy hm with ⟨⟨h1, h2, h3, h4⟩, h5⟩
      exact Or.inr ⟨⟨h1, h2, h3, h4⟩, h5⟩
    · exact Or.inl (by simpa using hm)

theorem footprintB_iff (cols : ℤ) (t : Tetromino) (i : ℤ) :
    FootprintB cols t i = true ↔
      ∃ x y : ℕ, x < 4 ∧ y < 4 ∧ maskBit t x y = true ∧
        i = cols * (t.row + (x : ℤ)) + (t.col + (y : ℤ)) := by
  unfold FootprintB
  simp [List.any_eq_true, List.mem_range]

theorem lineFilled_iff (c : Context) (row : ℤ) :
    c.LineFilled row = true ↔
      ∀ col : ℕ, col < c.cols.toNat → c.CellAt row col ≠ 0 := by
  unfold Context.LineFilled
  simp [List.all_eq_true, List.mem_range]

theorem lineFilled_false_iff (c : Context) (row : ℤ) :
    c.LineFilled row = false ↔
      ∃ col : ℕ, col < c.cols.toNat ∧ c.CellAt row col = 0 := by
  rw [← Bool.not_eq_true, lineFilled_iff]
  push_neg
  simp

theorem topOccupied_iff (c : Context) :
    c.TopOccupied = true ↔
      ∃ row : ℕ, row < 2 ∧ ∃ col : ℕ, col < c.cols.toNat ∧ c.CellAt row col ≠ 0 := by
  unfold Context.TopOccupied
  simp [List.any_eq_true, List.mem_range]

/-! ### Field algebra for erase and put -/

theorem eraseF_putF_self (cols : ℤ) (t : Tetromino) (f : Field) :
    eraseF cols t (putF cols t f) = eraseF cols t f := by
  funext i
  unfold eraseF putF
  by_cases h : FootprintB cols t i <;> simp [h]

theorem eraseF_idem (cols : ℤ) (t : Tetromino) (f : Field) :
    eraseF cols t (eraseF cols t f) = eraseF cols t f := by
  funext i
  unfold eraseF
  by_cases h : FootprintB cols t i <;> simp [h]

theorem eraseF_sub (cols : ℤ) (t : Tetromino) (f : Field) :
    FieldSub (eraseF cols t f) f := by
  intro i h
  unfold eraseF at h
  by_cases hf : FootprintB cols t i
  · simp [hf] at h
  · simpa [hf] using h

theorem putF_sub (cols : ℤ) (t : Tetromino) (f : Field) (i : ℤ) :
    putF cols t f i ≠ 0 → f i ≠ 0 ∨ FootprintB cols t i = true := by
  intro h
  unfold putF at h
  by_cases hf : FootprintB cols t i
  · exact Or.inr hf
  · exact Or.inl (by simpa [hf] using h)

theorem fieldSub_trans {f g k : Field} (h1 : FieldSub f g) (h2 : FieldSub g k) :
    FieldSub f k := fun i hi => h2 i (h1 i hi)

theorem remove_field (c : Context) : c.Remove.field = eraseF c.cols c.curr c.field := rfl

theorem put_field (c : Context) : c.Put.field = putF c.cols c.curr c.field := rfl

/-- `Put` after `Remove` restores a board on which the piece was drawn. -/
theorem put_remove_of_drawn (c : Context) (h : c.PieceDrawn = true) : c.Remove.Put = c := by
  have hf : putF c.cols c.curr (eraseF c.cols c.curr c.field) = c.field := by
    funext i
    unfold putF eraseF
    by_cases hfp : FootprintB c.cols c.curr i
    · simp only [hfp, if_true]
      rcases (footprintB_iff _ _ _).mp hfp with ⟨x, y, hx, hy, hm, hi⟩
      unfold Context.PieceDrawn at h
      simp only [List.all_eq_true, List.mem_range, Bool.or_eq_true, Bool.not_eq_true',
        decide_eq_true_eq] at h
      rcases h x hx y hy with h' | h'
      · rw [hm] at h'; cases h'
      · rw [hi]; exact h'.symm
    · simp [hfp]
  show ({ c with field := putF c.cols c.curr (eraseF c.cols c.curr c.field) } : Context) = c
  rw [hf]

/-! ### Transport lemmas: the boolean state predicates read only some
components -/

theorem colBoundedB_iff (cols : ℤ) (t : Tetromino) :
    colBoundedB cols t = true ↔
      ∀ x y : ℕ, x < 4 → y < 4 → maskBit t x y = true →
        0 ≤ t.col + (y : ℤ) ∧ t.col + (y : ℤ) < cols := by
  unfold colBoundedB
  simp only [List.all_eq_true, List.mem_range, Bool.or_eq_true, Bool.not_eq_true',
    decide_eq_true_eq]
  constructor
  · intro h x y hx hy hm
    rcases h x hx y hy with h' | h'
    · rw [hm] at h'; cases h'
    · exact h'
  · intro h x hx y hy
    by_cases hm : maskBit t x y = true
    · exact Or.inr (h x y hx hy hm)
    · exact Or.inl (by simpa using hm)

theorem pieceColBounded_iff (c : Context) :
    c.PieceColBounded = true ↔
      ∀ x y : ℕ, x < 4 → y < 4 → maskBit c.curr x y = true →
        0 ≤ c.curr.col + (y : ℤ) ∧ c.curr.col + (y : ℤ) < c.cols :=
  colBoundedB_iff c.cols c.curr

theorem pieceColBounded_of_consistent {c : Context} (h : c.IsConsistent = true) :
    c.PieceColBounded = true := by
  rw [pieceColBounded_iff]
  intro x y hx hy hm
  rcases (isConsistent_iff c).mp h x y hx hy hm with ⟨⟨_, _, h3, h4⟩, _⟩
  exact ⟨h3, h4⟩

theorem pieceColBounded_congr {c c' : Context} (hc : c.cols = c'.cols)
    (hcur : c.curr = c'.curr) : c.PieceColBounded = c'.PieceColBounded := by
  unfold Context.PieceColBounded
  rw [hc, hcur]

theorem spawnShaped_congr {c c' : Context} (hc : c.cols = c'.cols)
    (hn : c.next = c'.next) : (c.SpawnShaped ↔ c'.SpawnShaped) := by
  unfold Context.SpawnShaped
  rw [hc, hn]

/-- The spawn column keeps all four frame columns inside the board when
`cols ≥ 5`. -/
theorem spawn_col_bounds {cols : ℤ} (hc : 5 ≤ cols) (y : ℕ) (hy : y < 4) :
    0 ≤ cols.tdiv 2 - 2 + (y : ℤ) ∧ cols.tdiv 2 - 2 + (y : ℤ) < cols := by
  have htd : cols.tdiv 2 = cols / 2 := Int.tdiv_eq_ediv (by omega) (by norm_num)
  rw [htd]
  omega

/-- A piece with rotation in `(-4, 0)` occupies no cells, so any placement
of it is consistent. -/
theorem consistent_of_neg_rotate {c : Context} (h1 : -4 < c.curr.rotate)
    (h2 : c.curr.rotate < 0) : c.IsConsistent = true := by
  rw [isConsistent_iff]
  intro x y hx hy hm
  rw [maskBit_neg_rotate h1 h2] at hm
  cases hm

/-! ### The rotation retry loop -/

theorem rotIter_inl {dir : ℤ} {c c' : Context} (h : rotIter dir c = .inl c') :
    c'.IsConsistent = true ∧ c' = { c with curr := c'.curr } := by
  simp only [rotIter] at h
  split at h
  · rename_i h1
    cases h
    exact ⟨h1, rfl⟩
  · split at h
    · rename_i h2
      cases h
      exact ⟨h2, rfl⟩
    · split at h
      · rename_i h3
        cases h
        exact ⟨h3, rfl⟩
      · cases h

theorem rotIter_inr {dir : ℤ} {c c' : Context} (h : rotIter dir c = .inr c') :
    c' = { c with curr := { c.curr with rotate := (c.curr.rotate + dir).tmod 4 } } ∧
      IsConsistent
        { c with curr := { c.curr with rotate := (c.curr.rotate + dir).tmod 4 } } = false := by
  simp only [rotIter] at h
  split at h
  · cases h
  · rename_i h1
    split at h
    · cases h
    · split at h
      · cases h
      · cases h
        constructor
        · obtain ⟨rows, cols, score, key, curr, next, field, ticks, rs, ri⟩ := c
          obtain ⟨ty, row, col, rot⟩ := curr
          simp only [Context.mk.injEq, Tetromino.mk.injEq, true_and, and_true]
          omega
        · exact Bool.not_eq_true _ ▸ (by simpa using h1)

theorem rotLoop_succ_inr {dir : ℤ} {c c' : Context} (h : rotIter dir c = .inr c')
    (n : ℕ) : RotateLoop dir (n + 1) c = RotateLoop dir n c' := by
  have e : RotateLoop dir (n + 1) c =
      match rotIter dir c with
      | .inl c2 => some c2
      | .inr c2 => RotateLoop dir n c2 := rfl
  rw [e, h]

theorem rotLoop_none_succ {dir : ℤ} {n : ℕ} {c : Context}
    (h : RotateLoop dir (n + 1) c = none) :
    ∃ c', rotIter dir c = .inr c' ∧ RotateLoop dir n c' = none := by
  unfold RotateLoop at h
  cases h' : rotIter dir c with
  | inl c1 => rw [h'] at h; cases h
  | inr c1 => rw [h'] at h; exact ⟨c1, rfl, h⟩

theorem rotLoop_some_spec {dir : ℤ} : ∀ {n : ℕ} {c c' : Context},
    RotateLoop dir n c = some c' →
      c'.IsConsistent = true ∧ c' = { c with curr := c'.curr } := by
  intro n
  induction n with
  | zero => intro c c' h; cases h
  | succ n ih =>
    intro c c' h
    unfold RotateLoop at h
    cases h' : rotIter dir c with
    | inl c1 =>
      rw [h'] at h
      injection h with h2
      subst h2
      exact rotIter_inl h'
    | inr c1 =>
      rw [h'] at h
      rcases ih h with ⟨hc, hsame⟩
      refine ⟨hc, ?_⟩
      have h2 := hsame
      rw [(rotIter_inr h').1] at h2
      exact h2

/-! ### The line-clear scan -/

theorem shiftLines_nonpos (c : Context) {row : ℤ} (h : row ≤ 0) : c.ShiftLines row = c := by
  have hf : shiftF c.cols row c.field = c.field := by
    funext p
    unfold shiftF
    rw [if_pos h]
  show ({ c with field := shiftF c.cols row c.field } : Context) = c
  rw [hf]

theorem shiftF_bottom {cols row : ℤ} (f : Field) (hrow : 0 < row) {col : ℤ}
    (hc0 : 0 ≤ col) (hc1 : col < cols) : shiftF cols row f col = 0 := by
  unfold shiftF
  rw [if_neg (by omega), if_pos ⟨hc0, hc1⟩]

theorem shiftF_mid {cols row : ℤ} (f : Field) (hrow : 0 < row) {r col : ℤ}
    (hr1 : 1 ≤ r) (hr2 : r ≤ row) (hc0 : 0 ≤ col) (hc1 : col < cols) :
    shiftF cols row f (cols * r + col) = f (cols * (r - 1) + col) := by
  have hcols : 0 < cols := by omega
  have hb1 : cols * 1 ≤ cols * r := mul_le_mul_of_nonneg_left (by omega) (by omega)
  have hexp : cols * (r + 1) = cols * r + cols := by ring
  have hb2 : cols * (r + 1) ≤ cols * (row + 1) := mul_le_mul_of_nonneg_left (by omega) (by omega)
  unfold shiftF
  rw [if_neg (by omega)]
  rw [if_neg (by push_neg; intro _; linarith)]
  rw [if_pos ⟨by linarith, by linarith⟩]
  rw [show cols * r + col - cols = cols * (r - 1) + col from by ring]

theorem shiftF_above {cols row : ℤ} (f : Field) (_hrow : 0 ≤ row) {r col : ℤ}
    (hr : row < r) (hc0 : 0 ≤ col) (hc1 : col < cols) :
    shiftF cols row f (cols * r + col) = f (cols * r + col) := by
  have hcols : 0 < cols := by omega
  by_cases h0 : row ≤ 0
  · unfold shiftF
    rw [if_pos h0]
  · have hb : cols * (row + 1) ≤ cols * r := mul_le_mul_of_nonneg_left (by omega) (by omega)
    have hb0 : cols * 2 ≤ cols * (row + 1) := mul_le_mul_of_nonneg_left (by omega) (by omega)
    unfold shiftF
    rw [if_neg (by omega)]
    rw [if_neg (by push_neg; intro _; linarith)]
    rw [if_neg (by push_neg; intro _; linarith)]

theorem shiftLines_cellAt (c : Context) (row r col : ℤ) :
    (c.ShiftLines row).CellAt r col = shiftF c.cols row c.field (c.cols * r + col) := rfl

theorem lineFilled_ext {c c' : Context} (hcols : c.cols = c'.cols) {row row' : ℤ}
    (h : ∀ col : ℕ, col < c.cols.toNat →
      (c.CellAt row col = 0 ↔ c'.CellAt row' col = 0)) :
    c.LineFilled row = c'.LineFilled row' := by
  cases hb : c'.LineFilled row' with
  | false =>
    rcases (lineFilled_false_iff c' row').mp hb with ⟨col, hcl, hcell⟩
    rw [lineFilled_false_iff]
    refine ⟨col, by rw [hcols]; exact hcl, ?_⟩
    exact (h col (by rw [hcols]; exact hcl)).mpr hcell
  | true =>
    rw [lineFilled_iff] at hb ⊢
    intro col hcl
    intro hcell
    exact hb col (by rw [← hcols]; exact hcl) ((h col hcl).mp hcell)

theorem shiftLines_lineFilled_zero (c : Context) {row : ℤ} (h : 0 < row)
    (hc : 0 < c.cols) : (c.ShiftLines row).LineFilled 0 = false := by
  rw [lineFilled_false_iff]
  refine ⟨0, by change 0 < c.cols.toNat; omega, ?_⟩
  rw [shiftLines_cellAt]
  rw [show c.cols * (0 : ℤ) + ((0 : ℕ) : ℤ) = (0 : ℤ) from by push_cast; ring]
  exact shiftF_bottom c.field h (by omega) (by omega)

theorem shiftLines_lineFilled_mid (c : Context) {row r : ℤ} (hrow : 0 < row)
    (h1 : 1 ≤ r) (h2 : r ≤ row) (hc : 0 < c.cols) :
    (c.ShiftLines row).LineFilled r = c.LineFilled (r - 1) := by
  refine @lineFilled_ext (c.ShiftLines row) c rfl r (r - 1) ?_
  intro col hcl
  rw [shiftLines_cellAt]
  rw [shiftF_mid c.field hrow h1 h2 (by omega) (by change col < c.cols.toNat at hcl; omega)]
  exact Iff.rfl

theorem shiftLines_lineFilled_above (c : Context) {row r : ℤ} (hrow : 0 ≤ row)
    (hr : row < r) (hc : 0 < c.cols) :
    (c.ShiftLines row).LineFilled r = c.LineFilled r := by
  refine @lineFilled_ext (c.ShiftLines row) c rfl r r ?_
  intro col hcl
  rw [shiftLines_cellAt]
  rw [shiftF_above c.field hrow hr (by omega) (by change col < c.cols.toNat at hcl; omega)]
  exact Iff.rfl

theorem checkAux_stuck {c : Context} (h : c.LineFilled 0 = true) :
    ∀ fuel lines, CheckAux fuel c 0 lines = none := by
  intro fuel
  induction fuel with
  | zero => intro lines; rfl
  | succ n ih =>
    intro lines
    unfold CheckAux
    rw [if_neg (by omega), if_pos h, shiftLines_nonpos c le_rfl]
    exact ih (lines + 1)

theorem filledCard_neg (c : Context) {row : ℤ} (h : row < 0) : c.filledCard row = 0 := by
  unfold Context.filledCard
  rw [Finset.Icc_eq_empty (by omega)]
  simp

theorem filledCard_unfilled (c : Context) {row : ℤ} (h0 : 0 ≤ row)
    (h : c.LineFilled row = false) : c.filledCard row = c.filledCard (row - 1) := by
  unfold Context.filledCard
  have hicc : Finset.Icc (0:ℤ) row = insert row (Finset.Icc 0 (row - 1)) := by
    ext a
    simp only [Finset.mem_Icc, Finset.mem_insert]
    omega
  rw [hicc, Finset.filter_insert, if_neg (by simp [h])]

theorem filledCard_filled (c : Context) {row : ℤ} (h0 : 0 ≤ row)
    (h : c.LineFilled row = true) : c.filledCard row = c.filledCard (row - 1) + 1 := by
  unfold Context.filledCard
  have hicc : Finset.Icc (0:ℤ) row = insert row (Finset.Icc 0 (row - 1)) := by
    ext a
    simp only [Finset.mem_Icc, Finset.mem_insert]
    omega
  rw [hicc, Finset.filter_insert, if_pos (by simp [h])]
  rw [Finset.card_insert_of_not_mem]
  simp only [Finset.mem_filter, Finset.mem_Icc]
  omega

theorem filledCard_shift (c : Context) {row : ℤ} (h1 : 1 ≤ row) (hc : 0 < c.cols) :
    (c.ShiftLines row).filledCard row = c.filledCard (row - 1) := by
  unfold Context.filledCard
  apply Finset.card_bij (fun a _ => a - 1)
  · intro a ha
    simp only [Finset.mem_filter, Finset.mem_Icc] at ha ⊢
    have hne : a ≠ 0 := by
      intro h0
      rw [h0, shiftLines_lineFilled_zero c (by omega) hc] at ha
      exact absurd ha.2 (by simp)
    have h1a : 1 ≤ a := by omega
    rw [shiftLines_lineFilled_mid c (by omega) h1a ha.1.2 hc] at ha
    exact ⟨⟨by omega, by omega⟩, ha.2⟩
  · intro a ha b hb hab
    omega
  · intro b hb
    simp only [Finset.mem_filter, Finset.mem_Icc] at hb ⊢
    refine ⟨b + 1, ⟨⟨by omega, by omega⟩, ?_⟩, by omega⟩
    rw [shiftLines_lineFilled_mid c (by omega) (by omega) (by omega) hc]
    rw [show b + 1 - 1 = b from by ring]
    exact hb.2

/-- Specification of the `CheckLines` scan loop: when it terminates it
changes only the board, returns the initial number of filled rows (plus
the accumulator), leaves no filled row at or below the scan start, and
leaves rows above the scan start untouched. -/
theorem checkAux_spec : ∀ (fuel : ℕ) (c : Context) (row : ℤ) (ln : ℕ) (c' : Context)
    (n : ℕ), 0 < c.cols → CheckAux fuel c row ln = some (c', n) →
    c.SameExceptField c' ∧
    n = ln + c.filledCard row ∧
    (∀ r : ℤ, 0 ≤ r → r ≤ row → c'.LineFilled r = false) ∧
    (∀ r : ℤ, row < r → c'.LineFilled r = c.LineFilled r) := by
  intro fuel
  induction fuel with
  | zero => intro c row ln c' n hc h; cases h
  | succ fuel ih =>
    intro c row ln c' n hc h
    unfold CheckAux at h
    by_cases hrow : row < 0
    · rw [if_pos hrow] at h
      injection h with h1
      rw [Prod.mk.injEq] at h1
      obtain ⟨h2, h3⟩ := h1
      subst h2
      subst h3
      refine ⟨rfl, by rw [filledCard_neg c hrow]; omega, ?_, fun r _ => rfl⟩
      intro r h0 hr
      omega
    · rw [if_neg hrow] at h
      by_cases hfill : c.LineFilled row = true
      · rw [if_pos hfill] at h
        by_cases hzero : row = 0
        · subst hzero
          rw [shiftLines_nonpos c le_rfl] at h
          rw [checkAux_stuck hfill fuel (ln + 1)] at h
          cases h
        · have hrow1 : 1 ≤ row := by omega
          obtain ⟨hsame, hn, hlow, hhigh⟩ :=
            ih (c.ShiftLines row) row (ln + 1) c' n hc h
          refine ⟨hsame, ?_, hlow, ?_⟩
          · rw [hn, filledCard_shift c hrow1 hc,
              filledCard_filled c (by omega) hfill]
            omega
          · intro r hr
            rw [hhigh r hr]
            exact shiftLines_lineFilled_above c (by omega) hr hc
      · have hfill' : c.LineFilled row = false := by
          simpa using hfill
        rw [if_neg hfill] at h
        obtain ⟨hsame, hn, hlow, hhigh⟩ := ih c (row - 1) ln c' n hc h
        refine ⟨hsame, ?_, ?_, ?_⟩
        · rw [hn, filledCard_unfilled c (by omega) hfill']
        · intro r h0 hr
          rcases lt_or_eq_of_le hr with h' | h'
          · exact hlow r h0 (by omega)
          · rw [h', hhigh row (by omega)]
            exact hfill'
        · intro r hr
          exact hhigh r (by omega)

/-- The scan returns immediately (board unchanged, zero lines) on a board
with no filled row at or below the scan start. -/
theorem checkAux_clean : ∀ (fuel : ℕ) (c : Context) (row : ℤ) (ln : ℕ),
    (∀ r : ℤ, 0 ≤ r → r ≤ row → c.LineFilled r = false) →
    (row + 1).toNat < fuel →
    CheckAux fuel c row ln = some (c, ln) := by
  intro fuel
  induction fuel with
  | zero => intro c row ln _ hf; omega
  | succ fuel ih =>
    intro c row ln hclean hf
    unfold CheckAux
    by_cases hrow : row < 0
    · rw [if_pos hrow]
    · rw [if_neg hrow, if_neg (by rw [hclean row (by omega) le_rfl]; simp)]
      apply ih c (row - 1) ln (fun r h0 hr => hclean r h0 (by omega))
      omega

theorem checkFuel_gt (c : Context) : (c.rows - 1 + 1).toNat < checkFuel c := by
  unfold Context.checkFuel
  rw [show c.rows - 1 + 1 = c.rows from by ring]
  omega

theorem lineFilled_mono {c c' : Context} (hcols : c.cols = c'.cols)
    (hsub : FieldSub c.field c'.field) {r : ℤ} (h : c'.LineFilled r = false) :
    c.LineFilled r = false := by
  rcases (lineFilled_false_iff c' r).mp h with ⟨col, hcl, hcell⟩
  rw [lineFilled_false_iff]
  refine ⟨col, by rw [hcols]; exact hcl, ?_⟩
  unfold Context.CellAt at hcell ⊢
  rw [hcols]
  by_contra hne
  exact hne (by_contra fun h2 => absurd (hsub _ h2) (by rw [hcell]; simp))

/-! ### A piece occupies at most 4 cells, hence touches at most 4 rows -/

theorem maskPairs_congr (t t' : Tetromino) (hty : t.type = t'.type)
    (hrot : t.rotate = t'.rotate) : maskPairs t = maskPairs t' := by
  unfold maskPairs
  apply Finset.filter_congr
  intro p _
  unfold maskBit
  rw [hty, hrot]

theorem maskPairs_card_le (t : Tetromino) : (maskPairs t).card ≤ 4 := by
  obtain ⟨ty, row, col, rot⟩ := t
  have hcongr : maskPairs ⟨ty, row, col, rot⟩ = maskPairs ⟨ty, row, col, rot.tmod 4⟩ := by
    unfold maskPairs
    apply Finset.filter_congr
    intro p _
    rw [maskBit_rotate_tmod ⟨ty, row, col, rot⟩ p.1 p.2]
  rw [hcongr, maskPairs_congr ⟨ty, row, col, rot.tmod 4⟩ ⟨ty, 0, 0, rot.tmod 4⟩ rfl rfl]
  obtain ⟨hb1, hb2⟩ := tmod4_bounds rot
  set m := rot.tmod 4 with hm
  have hneg : ∀ mm : ℤ, -4 < mm → mm < 0 →
      maskPairs ⟨ty, 0, 0, mm⟩ = ∅ := by
    intro mm hm1 hm2
    apply Finset.filter_false_of_mem
    intro p _
    rw [maskBit_neg_rotate hm1 hm2]
    simp
  rcases Nat.lt_or_ge ty 8 with hty | hty
  · interval_cases m
    · rw [hneg (-3) (by norm_num) (by norm_num)]; simp
    · rw [hneg (-2) (by norm_num) (by norm_num)]; simp
    · rw [hneg (-1) (by norm_num) (by norm_num)]; simp
    · interval_cases ty <;> decide
    · interval_cases ty <;> decide
    · interval_cases ty <;> decide
    · interval_cases ty <;> decide
  · have hmask : kTetrominos ty = 0 := by
      unfold kTetrominos
      apply List.getD_eq_default
      simp only [List.length_cons, List.length_nil]
      omega
    have hempty : maskPairs ⟨ty, 0, 0, m⟩ = ∅ := by
      apply Finset.filter_false_of_mem
      intro p _
      unfold maskBit
      simp only [hmask, Nat.zero_testBit]
      simp
    rw [hempty]
    simp

theorem fpRows_card_le (t : Tetromino) : (fpRows t).card ≤ 4 :=
  le_trans Finset.card_image_le (maskPairs_card_le t)

/-- Two flat-index decompositions `cols * r + j` with `j` a valid column
name the same row. -/
theorem flat_row_eq {cols r R j J : ℤ} (hc : 0 < cols) (hj : 0 ≤ j) (hj2 : j < cols)
    (hJ : 0 ≤ J) (hJ2 : J < cols) (he : cols * r + j = cols * R + J) : r = R := by
  rcases lt_trichotomy r R with h | h | h
  · exfalso
    have h1 : r ≤ R - 1 := by omega
    have h2 : cols * r ≤ cols * (R - 1) := mul_le_mul_of_nonneg_left h1 (by omega)
    have h3 : cols * (R - 1) = cols * R - cols := by ring
    omega
  · exact h
  · exfalso
    have h1 : R ≤ r - 1 := by omega
    have h2 : cols * R ≤ cols * (r - 1) := mul_le_mul_of_nonneg_left h1 (by omega)
    have h3 : cols * (r - 1) = cols * r - cols := by ring
    omega

/-- Every filled row of a board that extends `g` only on the footprint of
a column-bounded piece `t` is a row of `t`'s footprint, provided `g` has
an empty cell in every board row; hence at most 4 rows are filled. -/
theorem filledCard_le_four {c : Context} {g : Field} {t : Tetromino}
    (hc : 0 < c.cols)
    (hb : ∀ x y : ℕ, x < 4 → y < 4 → maskBit t x y = true →
      0 ≤ t.col + (y : ℤ) ∧ t.col + (y : ℤ) < c.cols)
    (hsub : ∀ i : ℤ, c.field i ≠ 0 → g i ≠ 0 ∨ FootprintB c.cols t i = true)
    (hg : ∀ r : ℤ, 0 ≤ r → r < c.rows →
      ∃ col : ℕ, col < c.cols.toNat ∧ g (c.cols * r + col) = 0) :
    c.filledCard (c.rows - 1) ≤ 4 := by
  have hsubset : ((Finset.Icc 0 (c.rows - 1)).filter fun r => c.LineFilled r = true)
      ⊆ fpRows t := by
    intro r hr
    simp only [Finset.mem_filter, Finset.mem_Icc] at hr
    obtain ⟨⟨hr0, hr1⟩, hfill⟩ := hr
    obtain ⟨col, hcl, hgcol⟩ := hg r hr0 (by omega)
    have hcell : c.CellAt r col ≠ 0 := (lineFilled_iff c r).mp hfill col hcl
    unfold Context.CellAt at hcell
    rcases hsub _ hcell with h' | h'
    · exact absurd hgcol h'
    · rcases (footprintB_iff _ _ _).mp h' with ⟨x, y, hx, hy, hm, hi⟩
      obtain ⟨hcb1, hcb2⟩ := hb x y hx hy hm
      have hj : (0 : ℤ) ≤ (col : ℤ) := by omega
      have hj2 : (col : ℤ) < c.cols := by
        change (col : ℕ) < c.cols.toNat at hcl
        omega
      have hre : r = t.row + (x : ℤ) := flat_row_eq hc hj hj2 hcb1 hcb2 hi
      unfold fpRows
      rw [Finset.mem_image]
      refine ⟨(x, y), ?_, hre.symm⟩
      unfold maskPairs
      simp only [Finset.mem_filter, Finset.mem_product, Finset.mem_range]
      exact ⟨⟨hx, hy⟩, hm⟩
  exact le_trans (Finset.card_le_card hsubset) (fpRows_card_le t)

/-! ### Record cancellation facts -/

theorem tetromino_col_cancel (t : Tetromino) (d : ℤ) :
    ({ t with col := t.col + d - d } : Tetromino) = t := by
  obtain ⟨ty, r, cl, ro⟩ := t
  simp only [Tetromino.mk.injEq, true_and, and_true]
  ring

theorem tetromino_row_cancel (t : Tetromino) :
    ({ t with row := t.row + 1 - 1 } : Tetromino) = t := by
  obtain ⟨ty, r, cl, ro⟩ := t
  simp only [Tetromino.mk.injEq, true_and, and_true]
  ring

theorem footprintB_congr (cols : ℤ) {t t' : Tetromino} (h : t = t') (i : ℤ) :
    FootprintB cols t i = FootprintB cols t' i := by rw [h]

/-! ### The gravity step -/

theorem gravityStep_rows (c : Context) : (c.GravityStep).rows = c.rows := by
  simp only [Context.GravityStep]
  split
  · split
    · rfl
    · rfl
  · rfl

theorem gravityStep_cols (c : Context) : (c.GravityStep).cols = c.cols := by
  simp only [Context.GravityStep]
  split
  · split
    · rfl
    · rfl
  · rfl

theorem gravityStep_score (c : Context) : (c.GravityStep).score = c.score := by
  simp only [Context.GravityStep]
  split
  · split
    · rfl
    · rfl
  · rfl

theorem gravityStep_key (c : Context) : (c.GravityStep).key = c.key := by
  simp only [Context.GravityStep]
  split
  · split
    · rfl
    · rfl
  · rfl

theorem gravityStep_spawnShaped (c : Context) (_hc : 5 ≤ c.cols) (hs : c.SpawnShaped) :
    (c.GravityStep).SpawnShaped := by
  simp only [Context.GravityStep]
  split
  · split
    · exact hs
    · show spawnShapedP c.cols
        { type := c.randStream c.randIdx % 7 + 1, row := 0,
          col := c.cols.tdiv 2 - 2, rotate := 0 }
      have hlt := Nat.mod_lt (c.randStream c.randIdx) (show 0 < 7 by norm_num)
      refine ⟨rfl, rfl, rfl, ?_, ?_⟩
      · show 1 ≤ c.randStream c.randIdx % 7 + 1
        omega
      · show 7 ≥ c.randStream c.randIdx % 7 + 1
        omega
  · exact hs

theorem gravityStep_colBounded (c : Context) (hc : 5 ≤ c.cols)
    (hb : c.PieceColBounded = true) (hs : c.SpawnShaped) :
    (c.GravityStep).PieceColBounded = true := by
  simp only [Context.GravityStep]
  split
  · split
    · rename_i hcons
      have hb2 := pieceColBounded_of_consistent hcons
      exact (pieceColBounded_congr rfl rfl).trans hb2
    · show colBoundedB c.cols c.next = true
      rw [colBoundedB_iff]
      intro x y hx hy hm
      obtain ⟨hrow0, hcol, hrot, ht1, ht2⟩ := hs
      rw [hcol]
      exact spawn_col_bounds hc y hy
  · exact hb

theorem gravityStep_sub (c : Context) (i : ℤ) :
    eraseF (c.GravityStep).cols (c.GravityStep).curr (c.GravityStep).field i ≠ 0 →
    eraseF c.cols c.curr c.field i ≠ 0 ∨ FootprintB c.cols c.curr i = true := by
  simp only [Context.GravityStep]
  split
  · split
    · intro h
      change eraseF c.cols { c.curr with row := c.curr.row + 1 }
        (putF c.cols { c.curr with row := c.curr.row + 1 }
          (eraseF c.cols c.curr c.field)) i ≠ 0 at h
      rw [eraseF_putF_self] at h
      exact Or.inl (eraseF_sub _ _ _ i h)
    · intro h
      change eraseF c.cols c.next
        (putF c.cols { c.curr with row := c.curr.row + 1 - 1 }
          (eraseF c.cols c.curr c.field)) i ≠ 0 at h
      have h2 := eraseF_sub _ _ _ i h
      rcases putF_sub _ _ _ i h2 with h3 | h3
      · exact Or.inl h3
      · rw [footprintB_congr c.cols (tetromino_row_cancel c.curr) i] at h3
        exact Or.inr h3
  · intro h
    exact Or.inl h

/-! ### The command dispatch -/

theorem moveTo_same (c : Context) (dir : ℤ) :
    (c.MoveTo dir).rows = c.rows ∧ (c.MoveTo dir).cols = c.cols ∧
    (c.MoveTo dir).score = c.score ∧ (c.MoveTo dir).next = c.next := by
  simp only [Context.MoveTo]
  split
  · exact ⟨rfl, rfl, rfl, rfl⟩
  · exact ⟨rfl, rfl, rfl, rfl⟩

theorem moveTo_field (c : Context) (dir : ℤ) :
    (c.MoveTo dir).field =
      putF c.cols (c.MoveTo dir).curr (eraseF c.cols c.curr c.field) := by
  simp only [Context.MoveTo]
  split
  · rfl
  · rfl

theorem moveTo_colBounded (c : Context) (dir : ℤ) (hb : c.PieceColBounded = true) :
    (c.MoveTo dir).PieceColBounded = true := by
  simp only [Context.MoveTo]
  split
  · rename_i hcons
    have hb2 := pieceColBounded_of_consistent hcons
    exact (pieceColBounded_congr rfl rfl).trans hb2
  · show colBoundedB c.cols ({ c.curr with col := c.curr.col + dir - dir }) = true
    rw [tetromino_col_cancel c.curr dir]
    exact hb

theorem drop_same (c : Context) :
    c.Drop.rows = c.rows ∧ c.Drop.cols = c.cols ∧
    c.Drop.score = c.score ∧ c.Drop.next = c.next := by
  simp only [Context.Drop]
  split
  · exact ⟨rfl, rfl, rfl, rfl⟩
  · exact ⟨rfl, rfl, rfl, rfl⟩

theorem drop_field (c : Context) :
    c.Drop.field = putF c.cols c.Drop.curr (eraseF c.cols c.curr c.field) := by
  simp only [Context.Drop]
  split
  · rfl
  · rfl

theorem drop_colBounded (c : Context) (hb : c.PieceColBounded = true) :
    c.Drop.PieceColBounded = true := by
  simp only [Context.Drop]
  split
  · rename_i hcons
    have hb2 := pieceColBounded_of_consistent hcons
    exact (pieceColBounded_congr rfl rfl).trans hb2
  · show colBoundedB c.cols ({ c.curr with row := c.curr.row + 1 - 1 }) = true
    rw [tetromino_row_cancel c.curr]
    exact hb

theorem rotateTo_spec {c c2 : Context} {dir : ℤ} (h : c.RotateTo dir = some c2) :
    c2.rows = c.rows ∧ c2.cols = c.cols ∧ c2.score = c.score ∧ c2.next = c.next ∧
    c2.field = putF c.cols c2.curr (eraseF c.cols c.curr c.field) ∧
    c2.PieceColBounded = true := by
  unfold Context.RotateTo at h
  cases hL : RotateLoop dir 8 c.Remove with
  | none => rw [hL] at h; cases h
  | some cL =>
    rw [hL] at h
    injection h with h2
    subst h2
    obtain ⟨hcons, hsame⟩ := rotLoop_some_spec hL
    rw [hsame]
    refine ⟨rfl, rfl, rfl, rfl, rfl, ?_⟩
    have hb := pieceColBounded_of_consistent hcons
    rw [hsame] at hb
    exact hb

theorem handleKey_spec {c c2 : Context} (h : c.HandleKey = some c2) :
    c2.rows = c.rows ∧ c2.cols = c.cols ∧ c2.score = c.score ∧ c2.next = c.next ∧
    (∀ i : ℤ, eraseF c2.cols c2.curr c2.field i ≠ 0 →
      eraseF c.cols c.curr c.field i ≠ 0) ∧
    (c.PieceColBounded = true → c2.PieceColBounded = true) := by
  unfold Context.HandleKey at h
  cases hk : c.key <;> rw [hk] at h
  case kNone =>
    injection h with h2
    subst h2
    exact ⟨rfl, rfl, rfl, rfl, fun i hi => hi, fun hb => hb⟩
  case kLeft =>
    injection h with h2
    subst h2
    obtain ⟨h1, h2, h3, h4⟩ := moveTo_same c (-1)
    refine ⟨h1, h2, h3, h4, ?_, moveTo_colBounded c (-1)⟩
    intro i hi
    rw [h2, moveTo_field c (-1), eraseF_putF_self] at hi
    exact eraseF_sub _ _ _ i hi
  case kRight =>
    injection h with h2
    subst h2
    obtain ⟨h1, h2, h3, h4⟩ := moveTo_same c 1
    refine ⟨h1, h2, h3, h4, ?_, moveTo_colBounded c 1⟩
    intro i hi
    rw [h2, moveTo_field c 1, eraseF_putF_self] at hi
    exact eraseF_sub _ _ _ i hi
  case kDrop =>
    injection h with h2
    subst h2
    obtain ⟨h1, h2, h3, h4⟩ := drop_same c
    refine ⟨h1, h2, h3, h4, ?_, drop_colBounded c⟩
    intro i hi
    rw [h2, drop_field c, eraseF_putF_self] at hi
    exact eraseF_sub _ _ _ i hi
  case kClock =>
    obtain ⟨h1, h2, h3, h4, h5, h6⟩ := rotateTo_spec h
    refine ⟨h1, h2, h3, h4, ?_, fun _ => h6⟩
    intro i hi
    rw [h2, h5, eraseF_putF_self] at hi
    exact eraseF_sub _ _ _ i hi
  case kCounter =>
    obtain ⟨h1, h2, h3, h4, h5, h6⟩ := rotateTo_spec h
    refine ⟨h1, h2, h3, h4, ?_, fun _ => h6⟩
    intro i hi
    rw [h2, h5, eraseF_putF_self] at hi
    exact eraseF_sub _ _ _ i hi

/-! ### The game-over check and tick assembly -/

theorem gameOver_spec (c4 : Context) :
    ((c4.GameOver).1 = true ∧ (c4.GameOver).2 = c4.Remove ∧
      (c4.Remove).TopOccupied = true) ∨
    ((c4.GameOver).1 = false ∧ (c4.GameOver).2 = (c4.Remove).Put ∧
      (c4.Remove).TopOccupied = false) := by
  simp only [Context.GameOver]
  split
  · rename_i h
    exact Or.inl ⟨rfl, rfl, h⟩
  · rename_i h
    exact Or.inr ⟨rfl, rfl, by simpa using h⟩

theorem topOccupied_congr {c c' : Context} (hcols : c.cols = c'.cols)
    (hf : c.field = c'.field) : c.TopOccupied = c'.TopOccupied := by
  unfold Context.TopOccupied Context.CellAt
  rw [hcols, hf]

theorem eraseF_fp_zero {cols : ℤ} {t : Tetromino} {i : ℤ} (f : Field)
    (h : FootprintB cols t i = true) : eraseF cols t f i = 0 := by
  unfold eraseF
  rw [if_pos h]

theorem kLineMultiplier_nonneg (n : ℕ) : 0 ≤ kLineMultiplier n := by
  unfold Context.kLineMultiplier
  match n with
  | 0 | 1 | 2 | 3 | 4 => decide
  | m + 5 =>
    rw [List.getD_eq_default]
    · simp only [List.length_cons, List.length_nil]
      omega

/-- Dissection of a successful tick into its four stages. -/
theorem updateL_destruct {c : Context} {res : Bool} {c' : Context} {lines : ℕ}
    (h : c.UpdateL = some (res, c', lines)) :
    ∃ c2 cs : Context,
      (c.GravityStep).HandleKey = some c2 ∧
      CheckAux (checkFuel c2.Remove) c2.Remove (c2.rows - 1) 0 = some (cs, lines) ∧
      res = !(((cs.Put.ScoreUp lines).GameOver).1) ∧
      c' = ((cs.Put.ScoreUp lines).GameOver).2 := by
  unfold Context.UpdateL at h
  rw [Option.bind_eq_some] at h
  obtain ⟨c2, hk, h2⟩ := h
  rw [Option.map_eq_some'] at h2
  obtain ⟨r, hcl, h3⟩ := h2
  obtain ⟨c3, n⟩ := r
  simp only [Prod.mk.injEq] at h3
  obtain ⟨hres, hc', hlines⟩ := h3
  unfold Context.CheckLines at hcl
  rw [Option.map_eq_some'] at hcl
  obtain ⟨q, hca, hpair⟩ := hcl
  obtain ⟨cs, n'⟩ := q
  simp only [Prod.mk.injEq] at hpair
  obtain ⟨hc3, hn⟩ := hpair
  subst hlines
  subst hn
  subst hc3
  exact ⟨c2, cs, hk, hca, hres.symm, hc'.symm⟩

theorem eraseF_zero (cols : ℤ) (t : Tetromino) (i : ℤ) :
    eraseF cols t (fun _ => 0) i = 0 := by
  unfold eraseF
  split
  · rfl
  · rfl

theorem checkAux_sameExceptField : ∀ (fuel : ℕ) (c : Context) (row : ℤ) (ln : ℕ)
    (c' : Context) (n : ℕ), CheckAux fuel c row ln = some (c', n) →
    c.SameExceptField c' := by
  intro fuel
  induction fuel with
  | zero => intro c row ln c' n h; cases h
  | succ fuel ih =>
    intro c row ln c' n h
    unfold CheckAux at h
    by_cases hrow : row < 0
    · rw [if_pos hrow] at h
      injection h with h1
      rw [Prod.mk.injEq] at h1
      obtain ⟨h2, _⟩ := h1
      subst h2
      rfl
    · rw [if_neg hrow] at h
      by_cases hfill : c.LineFilled row = true
      · rw [if_pos hfill] at h
        exact ih (c.ShiftLines row) row (ln + 1) c' n h
      · rw [if_neg hfill] at h
        exact ih c (row - 1) ln c' n h

theorem noFilledErased_congr {c c' : Context} (h1 : c.rows = c'.rows)
    (h2 : c.cols = c'.cols) (h3 : c.curr = c'.curr) (h4 : c.field = c'.field) :
    c.NoFilledErased = c'.NoFilledErased := by
  unfold Context.NoFilledErased Context.LineFilled Context.Remove Context.CellAt
  rw [h1, h2, h3, h4]

/-- The central tick lemma: under the play invariant, a tick clears at
most 4 lines, and a game-continuing tick preserves the invariant. -/
theorem updateL_inv {c : Context} {res : Bool} {c' : Context} {lines : ℕ}
    (hInv : c.Inv) (h : c.UpdateL = some (res, c', lines)) :
    lines ≤ 4 ∧ (res = true → c'.Inv) := by
  obtain ⟨hrows, hcols, hnf, hbnd, hsp, hsc⟩ := hInv
  obtain ⟨c2, cs, hk, hca, hres, hc'⟩ := updateL_destruct h
  have g_cb := gravityStep_colBounded c (by omega) hbnd hsp
  have g_ss := gravityStep_spawnShaped c (by omega) hsp
  obtain ⟨k_rows, k_cols, k_score, k_next, k_sub, k_cb⟩ := handleKey_spec hk
  have hc2cols : c2.cols = c.cols := by rw [k_cols, gravityStep_cols]
  have hc2rows : c2.rows = c.rows := by rw [k_rows, gravityStep_rows]
  have hc2score : c2.score = c.score := by rw [k_score, gravityStep_score]
  have hb2 := k_cb g_cb
  have hrc0 : (0 : ℤ) < (c2.Remove).cols := by
    show (0 : ℤ) < c2.cols
    omega
  obtain ⟨s_same, s_count, s_low, s_high⟩ :=
    checkAux_spec (checkFuel c2.Remove) c2.Remove (c2.rows - 1) 0 cs lines hrc0 hca
  have s_eq : cs = { c2.Remove with field := cs.field } := s_same
  have e1 := congrArg Context.rows s_eq
  have e2 := congrArg Context.cols s_eq
  have e3 := congrArg Context.curr s_eq
  have e4 := congrArg Context.next s_eq
  have e5 := congrArg Context.score s_eq
  have cs_rows : cs.rows = c2.rows := e1
  have cs_cols : cs.cols = c2.cols := e2
  have cs_curr : cs.curr = c2.curr := e3
  have cs_next : cs.next = c2.next := e4
  have cs_score : cs.score = c2.score := e5
  have hlines4 : lines ≤ 4 := by
    have hcount : lines = (c2.Remove).filledCard (c2.rows - 1) := by
      rw [s_count]
      omega
    rw [hcount]
    have hbq : ∀ x y : ℕ, x < 4 → y < 4 → maskBit c.curr x y = true →
        0 ≤ c.curr.col + (y : ℤ) ∧ c.curr.col + (y : ℤ) < (c2.Remove).cols := by
      intro x y hx hy hm
      have hb' := (pieceColBounded_iff c).mp hbnd x y hx hy hm
      refine ⟨hb'.1, ?_⟩
      show c.curr.col + (y : ℤ) < c2.cols
      omega
    have hsubq : ∀ i : ℤ, (c2.Remove).field i ≠ 0 →
        (eraseF c.cols c.curr c.field) i ≠ 0 ∨
          FootprintB (c2.Remove).cols c.curr i = true := by
      intro i hi
      have hi' : eraseF c2.cols c2.curr c2.field i ≠ 0 := hi
      have h1 := k_sub i hi'
      rcases gravityStep_sub c i h1 with h2 | h2
      · exact Or.inl h2
      · refine Or.inr ?_
        show FootprintB c2.cols c.curr i = true
        rw [hc2cols]
        exact h2
    have hgq : ∀ r : ℤ, 0 ≤ r → r < (c2.Remove).rows →
        ∃ col : ℕ, col < (c2.Remove).cols.toNat ∧
          (eraseF c.cols c.curr c.field) ((c2.Remove).cols * r + col) = 0 := by
      intro r h0 hr
      change r < c2.rows at hr
      have hr' : r < c.rows := by omega
      have hnf' : (c.Remove).LineFilled r = false := by
        unfold Context.NoFilledErased at hnf
        rw [List.all_eq_true] at hnf
        have hmem : r.toNat ∈ List.range c.rows.toNat := by
          rw [List.mem_range]
          omega
        have h5 := hnf r.toNat hmem
        rw [Bool.not_eq_true'] at h5
        rw [Int.toNat_of_nonneg h0] at h5
        exact h5
      rcases (lineFilled_false_iff c.Remove r).mp hnf' with ⟨col, hcl, hcell⟩
      change (col : ℕ) < c.cols.toNat at hcl
      refine ⟨col, ?_, ?_⟩
      · show (col : ℕ) < c2.cols.toNat
        omega
      · show eraseF c.cols c.curr c.field (c2.cols * r + col) = 0
        rw [hc2cols]
        exact hcell
    exact filledCard_le_four hrc0 hbq hsubq hgq
  refine ⟨hlines4, ?_⟩
  intro hrt
  rcases gameOver_spec (cs.Put.ScoreUp lines) with ⟨ho1, ho2, ho3⟩ | ⟨ho1, ho2, ho3⟩
  · rw [ho1] at hres
    rw [hres] at hrt
    simp at hrt
  · have hcr : c'.rows = cs.rows := by rw [hc', ho2]; rfl
    have hcc : c'.cols = cs.cols := by rw [hc', ho2]; rfl
    have hccur : c'.curr = cs.curr := by rw [hc', ho2]; rfl
    have hcn : c'.next = cs.next := by rw [hc', ho2]; rfl
    have hcs : c'.score = cs.score + kLineMultiplier lines := by rw [hc', ho2]; rfl
    have hfield : (c'.Remove).field = eraseF cs.cols cs.curr cs.field := by
      rw [hc', ho2]
      show eraseF cs.cols cs.curr (putF cs.cols cs.curr
        (eraseF cs.cols cs.curr (putF cs.cols cs.curr cs.field))) = _
      rw [eraseF_putF_self, eraseF_idem, eraseF_putF_self]
    refine ⟨by omega, by omega, ?_, ?_, ?_, ?_⟩
    · unfold Context.NoFilledErased
      rw [List.all_eq_true]
      intro r hmem
      rw [List.mem_range] at hmem
      rw [Bool.not_eq_true']
      refine @lineFilled_mono (c'.Remove) cs ?_ ?_ r ?_
      · show c'.cols = cs.cols
        exact hcc
      · rw [hfield]
        exact eraseF_sub _ _ _
      · apply s_low
        · omega
        · have : (r : ℤ) < c'.rows := by
            have h6 : (r : ℕ) < c'.rows.toNat := hmem
            omega
          omega
    · have h7 : c'.curr = c2.curr := hccur.trans cs_curr
      have h8 : c'.cols = c2.cols := hcc.trans cs_cols
      exact (pieceColBounded_congr h8 h7).trans hb2
    · have h7 : (c.GravityStep).cols = c'.cols := by
        rw [gravityStep_cols, ← hc2cols, ← cs_cols, ← hcc]
      have h8 : (c.GravityStep).next = c'.next := by
        rw [← k_next, ← cs_next, ← hcn]
      exact (spawnShaped_congr h7 h8).mp g_ss
    · have h9 := kLineMultiplier_nonneg lines
      omega

/-- The score changes only by the scoring-table bonus of the tick. -/
theorem updateL_score {c : Context} {res : Bool} {c' : Context} {lines : ℕ}
    (h : c.UpdateL = some (res, c', lines)) :
    c'.score = c.score + kLineMultiplier lines := by
  obtain ⟨c2, cs, hk, hca, hres, hc'⟩ := updateL_destruct h
  obtain ⟨k_rows, k_cols, k_score, k_next, k_sub, k_cb⟩ := handleKey_spec hk
  have s_eq : cs = { c2.Remove with field := cs.field } :=
    checkAux_sameExceptField _ _ _ _ _ _ hca
  have e5 := congrArg Context.score s_eq
  have cs_score : cs.score = c2.score := e5
  have h1 : c'.score = cs.score + kLineMultiplier lines := by
    rcases gameOver_spec (cs.Put.ScoreUp lines) with ⟨_, ho2, _⟩ | ⟨_, ho2, _⟩
    · rw [hc', ho2]; try rfl
    · rw [hc', ho2]; try rfl
  rw [h1, cs_score, k_score, gravityStep_score]

/-- A tick returns `false` exactly when the final game-over check fires;
the returned state then has the piece erased. -/
theorem updateL_gameOver {c : Context} {res : Bool} {c' : Context} {lines : ℕ}
    (h : c.UpdateL = some (res, c', lines)) :
    (res = false ↔ (c'.Remove).TopOccupied = true) := by
  obtain ⟨c2, cs, hk, hca, hres, hc'⟩ := updateL_destruct h
  rcases gameOver_spec (cs.Put.ScoreUp lines) with ⟨ho1, ho2, ho3⟩ | ⟨ho1, ho2, ho3⟩
  · have htop : (c'.Remove).TopOccupied = true := by
      have he : (c'.Remove).TopOccupied =
          (((cs.Put.ScoreUp lines).Remove)).TopOccupied := by
        apply topOccupied_congr
        · rw [hc', ho2]; rfl
        · rw [hc', ho2]
          show eraseF (cs.Put.ScoreUp lines).cols (cs.Put.ScoreUp lines).curr
            (eraseF (cs.Put.ScoreUp lines).cols (cs.Put.ScoreUp lines).curr
              (cs.Put.ScoreUp lines).field) = _
          rw [eraseF_idem]
          rfl
      rw [he]
      exact ho3
    constructor
    · intro _
      exact htop
    · intro _
      rw [hres, ho1]
      rfl
  · have htop : (c'.Remove).TopOccupied = false := by
      have he : (c'.Remove).TopOccupied =
          (((cs.Put.ScoreUp lines).Remove)).TopOccupied := by
        apply topOccupied_congr
        · rw [hc', ho2]; rfl
        · rw [hc', ho2]
          show eraseF (cs.Put.ScoreUp lines).cols (cs.Put.ScoreUp lines).curr
            (putF (cs.Put.ScoreUp lines).cols (cs.Put.ScoreUp lines).curr
              (eraseF (cs.Put.ScoreUp lines).cols (cs.Put.ScoreUp lines).curr
                (cs.Put.ScoreUp lines).field)) = _
          rw [eraseF_putF_self, eraseF_idem]
          rfl
      rw [he]
      exact ho3
    constructor
    · intro hf
      rw [hres, ho1] at hf
      simp at hf
    · intro ht
      rw [htop] at ht
      cases ht

/-- On a game-over tick the returned board has the active piece's cells
erased. -/
theorem updateL_pieceErased {c : Context} {res : Bool} {c' : Context} {lines : ℕ}
    (h : c.UpdateL = some (res, c', lines)) (hres : res = false) :
    ∀ i : ℤ, FootprintB c'.cols c'.curr i = true → c'.field i = 0 := by
  obtain ⟨c2, cs, hk, hca, hres2, hc'⟩ := updateL_destruct h
  rcases gameOver_spec (cs.Put.ScoreUp lines) with ⟨ho1, ho2, ho3⟩ | ⟨ho1, ho2, ho3⟩
  · intro i hfp
    rw [hc', ho2]
    rw [hc', ho2] at hfp
    exact eraseF_fp_zero _ hfp
  · rw [ho1] at hres2
    rw [hres2] at hres
    simp at hres

/-- Reachable states satisfy the play invariant. -/
theorem reachable_inv {c : Context} (h : Reachable c) : c.Inv := by
  induction h with
  | init rows cols t0 f hr hc =>
    refine ⟨hr, hc, ?_, ?_, ?_, le_refl 0⟩
    · unfold Context.NoFilledErased
      rw [List.all_eq_true]
      intro r hmem
      rw [Bool.not_eq_true']
      rw [lineFilled_false_iff]
      refine ⟨0, ?_, ?_⟩
      · show 0 < cols.toNat
        omega
      · exact eraseF_zero _ _ _
    · show colBoundedB cols
        { type := f 0 % 7 + 1, row := 0, col := cols.tdiv 2 - 2, rotate := 0 } = true
      rw [colBoundedB_iff]
      intro x y hx hy hm
      exact spawn_col_bounds hc y hy
    · refine ⟨rfl, rfl, rfl, ?_, ?_⟩
      · show 1 ≤ f 1 % 7 + 1
        omega
      · show 7 ≥ f 1 % 7 + 1
        have := Nat.mod_lt (f 1) (show 0 < 7 by norm_num)
        omega
  | step c c' k lines hr hstep ih =>
    obtain ⟨i1, i2, i3, i4, i5, i6⟩ := ih
    have hInvK : Context.Inv { c with key := k } := by
      refine ⟨i1, i2, ?_, ?_, ?_, i6⟩
      · exact (noFilledErased_congr rfl rfl rfl rfl).trans i3
      · exact (pieceColBounded_congr rfl rfl).trans i4
      · exact (spawnShaped_congr rfl rfl).mp i5
    exact (updateL_inv hInvK hstep).2 rfl

/-! ### Exactness of the fuel 8 for the rotation retry loop -/

theorem rotStep_collapse (dir : ℤ) (c : Context) (n : ℕ) :
    (rotStep dir)^[n] c =
      { c with curr := { c.curr with rotate := ((rotStep dir)^[n] c).curr.rotate } } := by
  induction n with
  | zero => rfl
  | succ n ih =>
    rw [Function.iterate_succ_apply']
    rw [ih]
    rfl

theorem rotStep_rotate_bounds (dir : ℤ) (c : Context) (n : ℕ) :
    -4 < ((rotStep dir)^[n + 1] c).curr.rotate ∧
      ((rotStep dir)^[n + 1] c).curr.rotate < 4 := by
  rw [Function.iterate_succ_apply']
  exact tmod4_bounds _

theorem rotLoop_none_pred {dir : ℤ} : ∀ {n : ℕ} {c : Context},
    RotateLoop dir (n + 1) c = none → RotateLoop dir n c = none := by
  intro n
  induction n with
  | zero => intro c _; rfl
  | succ n ih =>
    intro c h
    obtain ⟨c1, hi, hrest⟩ := rotLoop_none_succ h
    rw [rotLoop_succ_inr hi]
    exact ih hrest

theorem rotLoop_none_le {dir : ℤ} {c : Context} {m n : ℕ} (hmn : m ≤ n)
    (h : RotateLoop dir n c = none) : RotateLoop dir m c = none := by
  obtain ⟨k, rfl⟩ := Nat.exists_eq_add_of_le hmn
  clear hmn
  revert h
  induction k with
  | zero => intro h; exact h
  | succ k ih => intro h; exact ih (rotLoop_none_pred h)

/-- A run of the retry loop that exhausts its fuel is a chain of failed
iterations, each stepping the state by `rotStep`. -/
theorem rotLoop_none_chain {dir : ℤ} : ∀ {n : ℕ} {c : Context},
    RotateLoop dir n c = none → ∀ k : ℕ, k < n →
    rotIter dir ((rotStep dir)^[k] c) = .inr ((rotStep dir)^[k + 1] c) := by
  intro n
  induction n with
  | zero => intro c _ k hk; exact absurd hk (Nat.not_lt_zero k)
  | succ n ih =>
    intro c h k hk
    obtain ⟨c1, hi, hrest⟩ := rotLoop_none_succ h
    have hc1 : c1 = rotStep dir c := (rotIter_inr hi).1
    rw [hc1] at hi hrest
    cases k with
    | zero => exact hi
    | succ k =>
      have h2 := ih hrest k (by omega)
      rw [Function.iterate_succ_apply, Function.iterate_succ_apply]
      exact h2

theorem rotLoop_peel {dir : ℤ} {c : Context}
    (hch : ∀ k : ℕ, k < 8 →
      rotIter dir ((rotStep dir)^[k] c) = .inr ((rotStep dir)^[k + 1] c)) :
    ∀ i : ℕ, i ≤ 8 → ∀ n : ℕ,
      RotateLoop dir (n + i) c = RotateLoop dir n ((rotStep dir)^[i] c) := by
  intro i
  induction i with
  | zero => intro _ n; rfl
  | succ i ih =>
    intro hi n
    have h1 := ih (by omega) (n + 1)
    have h2 := rotLoop_succ_inr (hch i (by omega)) n
    rw [show n + (i + 1) = n + 1 + i from by omega]
    rw [h1]
    exact h2

/-- Fuel 8 is exact for the `RotateTo` retry loop: the loop state is
determined by the rotation value, which lies in `(-4, 4)` from the first
iteration on, so among 8 failed iterations two states coincide and the loop
cycles forever.  Hence `RotateLoop dir 8 c = none` is exactly the C++
`while (true)` livelock. -/
theorem rotateLoop_eight_none (dir : ℤ) (c : Context)
    (h : RotateLoop dir 8 c = none) : ∀ n : ℕ, RotateLoop dir n c = none := by
  have hch : ∀ k : ℕ, k < 8 →
      rotIter dir ((rotStep dir)^[k] c) = .inr ((rotStep dir)^[k + 1] c) :=
    rotLoop_none_chain h
  have hstate : ∀ a b : ℕ,
      ((rotStep dir)^[a] c).curr.rotate = ((rotStep dir)^[b] c).curr.rotate →
      (rotStep dir)^[a] c = (rotStep dir)^[b] c := by
    intro a b hab
    rw [rotStep_collapse dir c a, rotStep_collapse dir c b, hab]
  have main : ∀ i j : ℕ, 1 ≤ i → i < j → j ≤ 8 →
      (rotStep dir)^[j] c = (rotStep dir)^[i] c →
      ∀ n : ℕ, RotateLoop dir n c = none := by
    intro i j hi1 hij hj8 hcycle n
    have hcyc : ∀ m : ℕ, ∀ k : ℕ, i ≤ k → k < j →
        RotateLoop dir m ((rotStep dir)^[k] c) = none := by
      intro m
      induction m with
      | zero => intro k _ _; rfl
      | succ m ih =>
        intro k hk1 hk2
        rw [rotLoop_succ_inr (hch k (by omega))]
        by_cases hkj : k + 1 < j
        · exact ih (k + 1) (by omega) hkj
        · rw [show k + 1 = j from by omega, hcycle]
          exact ih i le_rfl hij
    rcases Nat.lt_or_ge n i with hn | hn
    · exact rotLoop_none_le (by omega) h
    · obtain ⟨m, rfl⟩ : ∃ m : ℕ, n = m + i := ⟨n - i, by omega⟩
      rw [rotLoop_peel hch i (by omega) m]
      exact hcyc m i le_rfl hij
  have hmaps : ∀ k ∈ Finset.Icc 1 8,
      ((rotStep dir)^[k] c).curr.rotate ∈ Finset.Icc (-3 : ℤ) 3 := by
    intro k hk
    rw [Finset.mem_Icc] at hk
    obtain ⟨m, rfl⟩ : ∃ m : ℕ, k = m + 1 := ⟨k - 1, by omega⟩
    have hb := rotStep_rotate_bounds dir c m
    rw [Finset.mem_Icc]
    omega
  have hcard : (Finset.Icc (-3 : ℤ) 3).card < (Finset.Icc (1 : ℕ) 8).card := by
    rw [Nat.card_Icc, Int.card_Icc]
    decide
  obtain ⟨a, ha, b, hb, hab, hfab⟩ :=
    Finset.exists_ne_map_eq_of_card_lt_of_maps_to hcard hmaps
  rw [Finset.mem_Icc] at ha hb
  have hsab := hstate a b hfab
  rcases Nat.lt_or_ge a b with hlt | hge
  · exact main a b ha.1 hlt hb.2 hsab.symm
  · have hlt2 : b < a := by omega
    exact main b a hb.1 hlt2 ha.2 hsab

/-- The retry loop exits as soon as some iteration's first probe (the
rotated piece at the unshifted column) is consistent. -/
theorem rotLoop_isSome_of_probe {dir : ℤ} : ∀ (n k : ℕ) (d : Context), k < n →
    ((rotStep dir)^[k + 1] d).IsConsistent = true →
    (RotateLoop dir n d).isSome = true := by
  intro n
  induction n with
  | zero => intro k d hk _; exact absurd hk (Nat.not_lt_zero k)
  | succ n ih =>
    intro k d hk hcons
    cases hit : rotIter dir d with
    | inl c1 =>
      have hsome : RotateLoop dir (n + 1) d = some c1 := by
        unfold RotateLoop
        rw [hit]
      rw [hsome]
      rfl
    | inr c1 =>
      have hc1 : c1 = rotStep dir d := (rotIter_inr hit).1
      rw [hc1] at hit
      rw [rotLoop_succ_inr hit]
      cases k with
      | zero =>
        exfalso
        have h2 := (rotIter_inr hit).2
        have h2' : ((rotStep dir)^[0 + 1] d).IsConsistent = false := h2
        rw [hcons] at h2'
        exact Bool.noConfusion h2'
      | succ k =>
        apply ih k (rotStep dir d) (by omega)
        rw [← Function.iterate_succ_apply]
        exact hcons

/-- A rotation whose first probe fits succeeds with no wall-kick shift. -/
theorem rotateTo_firstFit {c : Context} (hf : c.FirstFit = true) :
    c.RotateTo 1 = some c.stepCW := by
  have hi : rotIter 1 c.Remove = .inl c.FirstProbe := by
    simp only [rotIter]
    split
    · rfl
    · rename_i h1
      exact absurd (show _ = true from hf) h1
  have h8 : RotateLoop 1 8 c.Remove = some c.FirstProbe := by
    unfold RotateLoop
    rw [hi]
  unfold Context.RotateTo
  rw [h8]
  rfl

/-- Every valid piece (shape id `1..7`, rotation `0..3`) occupies exactly
4 frame cells. -/
theorem maskPairs_card_eq_four {t : Tetromino} (h1 : 1 ≤ t.type) (h2 : t.type ≤ 7)
    (h3 : 0 ≤ t.rotate) (h4 : t.rotate < 4) : (maskPairs t).card = 4 := by
  obtain ⟨ty, row, col, rot⟩ := t
  have h1' : 1 ≤ ty := h1
  have h2' : ty ≤ 7 := h2
  have h3' : 0 ≤ rot := h3
  have h4' : rot < 4 := h4
  rw [maskPairs_congr ⟨ty, row, col, rot⟩ ⟨ty, 0, 0, rot⟩ rfl rfl]
  interval_cases ty <;> interval_cases rot <;> decide

/-! ### The claims -/

/-- C1: Corrected.  Game over is not a terminal latch and is determined by
the post-tick board: a tick returns `false` exactly when, after its
line-clear phase, some cell of the top two rows is non-empty with the
active piece erased.  A pre-tick game-over condition can be cleared by the
same tick, which then mutates state and returns `true`. -/
theorem C1 {c : Context} {res : Bool} {c' : Context} {lines : ℕ}
    (h : c.UpdateL = some (res, c', lines)) :
    res = false ↔ (c'.Remove).TopOccupied = true :=
  updateL_gameOver h

/-- C1 counterexample: `cexC1` satisfies the claimed game-over condition
(row 1 is completely filled with the piece erased), yet the tick clears
that row, raises the score to 40 and returns `true`. -/
theorem C1_cex :
    (cexC1.Remove).TopOccupied = true ∧
    cexC1.UpdateL = some (true, cexC1result, 1) ∧
    cexC1result.score = 40 :=
  ⟨by decide, rfl, by decide⟩

/-- C1 witness: the amended characterization at the concrete state
`exC10`, whose tick reports game over. -/
theorem C1_witness : (exC10result.Remove).TopOccupied = true :=
  (C1 (rfl : exC10.UpdateL = some (false, exC10result, 0))).mp rfl

/-- C2: Corrected.  Rotation need not terminate on every board (see the
counterexample), but it terminates within the 8-probe fuel whenever the
erased-piece placement is itself consistent (clockwise: the fourth
iteration's first probe restores the original configuration), and a
counter-clockwise rotation from a rotation in `{0,1,2,3}` always
terminates, because the truncated `%` drives the rotation negative, where
the piece occupies no cells and every placement is vacuously consistent. -/
theorem C2 {c : Context} (h0 : 0 ≤ c.curr.rotate) (h1 : c.curr.rotate < 4) :
    ((c.Remove).IsConsistent = true → (c.RotateTo 1).isSome = true) ∧
    (c.RotateTo (-1)).isSome = true := by
  have hq : c.curr.rotate = 0 ∨ c.curr.rotate = 1 ∨ c.curr.rotate = 2 ∨
      c.curr.rotate = 3 := by omega
  constructor
  · intro hcons
    unfold Context.RotateTo
    cases hL : RotateLoop 1 8 c.Remove with
    | some c2 => rfl
    | none =>
      exfalso
      have h3 := rotLoop_none_chain hL 3 (by norm_num)
      have hbad : ((rotStep (1:ℤ))^[4] (c.Remove)).IsConsistent = false :=
        (rotIter_inr h3).2
      have e : ((rotStep (1:ℤ))^[4] (c.Remove)).curr.rotate =
          (((((c.curr.rotate + 1).tmod 4 + 1).tmod 4 + 1).tmod 4 + 1).tmod 4) := rfl
      have hrot4 : ((rotStep (1:ℤ))^[4] (c.Remove)).curr.rotate = c.curr.rotate := by
        rw [e]
        rcases hq with hq2 | hq2 | hq2 | hq2 <;> rw [hq2] <;> decide
      have hstate : (rotStep (1:ℤ))^[4] (c.Remove) = c.Remove := by
        rw [rotStep_collapse 1 (c.Remove) 4, hrot4]
        rfl
      rw [hstate, hcons] at hbad
      exact Bool.noConfusion hbad
  · have hsome : (RotateLoop (-1) 8 (c.Remove)).isSome = true := by
      rcases hq with hq2 | hq2 | hq2 | hq2
      · refine rotLoop_isSome_of_probe 8 0 (c.Remove) (by norm_num)
          (consistent_of_neg_rotate ?_ ?_)
        · have e : ((rotStep (-1:ℤ))^[0 + 1] (c.Remove)).curr.rotate =
              (c.curr.rotate + -1).tmod 4 := rfl
          rw [e, hq2]; decide
        · have e : ((rotStep (-1:ℤ))^[0 + 1] (c.Remove)).curr.rotate =
              (c.curr.rotate + -1).tmod 4 := rfl
          rw [e, hq2]; decide
      · refine rotLoop_isSome_of_probe 8 1 (c.Remove) (by norm_num)
          (consistent_of_neg_rotate ?_ ?_)
        · have e : ((rotStep (-1:ℤ))^[1 + 1] (c.Remove)).curr.rotate =
              ((c.curr.rotate + -1).tmod 4 + -1).tmod 4 := rfl
          rw [e, hq2]; decide
        · have e : ((rotStep (-1:ℤ))^[1 + 1] (c.Remove)).curr.rotate =
              ((c.curr.rotate + -1).tmod 4 + -1).tmod 4 := rfl
          rw [e, hq2]; decide
      · refine rotLoop_isSome_of_probe 8 2 (c.Remove) (by norm_num)
          (consistent_of_neg_rotate ?_ ?_)
        · have e : ((rotStep (-1:ℤ))^[2 + 1] (c.Remove)).curr.rotate =
              (((c.curr.rotate + -1).tmod 4 + -1).tmod 4 + -1).tmod 4 := rfl
          rw [e, hq2]; decide
        · have e : ((rotStep (-1:ℤ))^[2 + 1] (c.Remove)).curr.rotate =
              (((c.curr.rotate + -1).tmod 4 + -1).tmod 4 + -1).tmod 4 := rfl
          rw [e, hq2]; decide
      · refine rotLoop_isSome_of_probe 8 3 (c.Remove) (by norm_num)
          (consistent_of_neg_rotate ?_ ?_)
        · have e : ((rotStep (-1:ℤ))^[3 + 1] (c.Remove)).curr.rotate =
              ((((c.curr.rotate + -1).tmod 4 + -1).tmod 4 + -1).tmod 4 + -1).tmod 4 := rfl
          rw [e, hq2]; decide
        · have e : ((rotStep (-1:ℤ))^[3 + 1] (c.Remove)).curr.rotate =
              ((((c.curr.rotate + -1).tmod 4 + -1).tmod 4 + -1).tmod 4 + -1).tmod 4 := rfl
          rw [e, hq2]; decide
    cases hL : RotateLoop (-1) 8 (c.Remove) with
    | none =>
      rw [hL] at hsome
      exact Bool.noConfusion hsome
    | some c2 =>
      unfold Context.RotateTo
      rw [hL]
      rfl

/-- C2 counterexample: the livelock state `cexC2` is reachable — a
`RotateCounterClockwise` from rotation 0 leaves the piece at rotation
`-1` occupying no cells, and four `Drop` ticks walk it below the board —
and from it the clockwise retry loop exits under no fuel, so a
`RotateClockwise` tick does not return. -/
theorem C2_cex :
    Reachable cexC2 ∧ cexC2.RotateDiverges 1 ∧
    Context.UpdateL { cexC2 with key := Key.kClock } = none := by
  refine ⟨?_, ?_, rfl⟩
  · have h0 : Reachable cexC2init :=
      Reachable.init 4 5 100 (fun _ => 0) (by norm_num) (by norm_num)
    have h1 : Reachable cexC2a := Reachable.step cexC2init cexC2a Key.kCounter 0 h0 rfl
    have h2 : Reachable cexC2b := Reachable.step cexC2a cexC2b Key.kDrop 0 h1 rfl
    have h3 : Reachable cexC2c := Reachable.step cexC2b cexC2c Key.kDrop 0 h2 rfl
    have h4 : Reachable cexC2d := Reachable.step cexC2c cexC2d Key.kDrop 0 h3 rfl
    exact Reachable.step cexC2d cexC2 Key.kDrop 0 h4 rfl
  · intro n
    exact rotateLoop_eight_none 1 cexC2.Remove rfl n

/-- C2 witness: both rotations terminate from the coherent state `wC2`. -/
theorem C2_witness :
    (wC2.Remove).IsConsistent = true ∧ (wC2.RotateTo 1).isSome = true ∧
    (wC2.RotateTo (-1)).isSome = true := by
  have h := C2 (show (0:ℤ) ≤ wC2.curr.rotate by decide)
    (show wC2.curr.rotate < 4 by decide)
  exact ⟨by decide, h.1 (by decide), h.2⟩

/-- C3: Code bug.  `(0 - 1) % 4` is `-1` in C++ (truncated remainder), so
a `RotateCounterClockwise` from rotation 0 stores `-1` in the rotation
field — outside the claimed `{0,1,2,3}` — and the tick `exC3.UpdateL`
completes with the active piece at rotation `-1`, for which
`RotateIndex4x4` falls through its `switch` to index 0 and the piece
occupies no cells at all. -/
theorem C3 :
    ((-1 : ℤ).tmod 4 = -1) ∧
    ((exC3.UpdateL).map fun r => (r.1, (r.2.1).curr.rotate)) = some (true, -1) ∧
    maskPairs { type := 1, row := 2, col := 0, rotate := -1 } = ∅ :=
  ⟨by decide, rfl, by decide⟩

/-- C4: Corrected.  Four clockwise rotations restore the original rotation
and column when each of them succeeds at its first probe (no wall kick
attempted); when a wall-kick retry advances past a blocked orientation,
four clockwise rotations can end at a different rotation (see the
counterexample).  The four closed-form index formulas do map the 16 frame
cells injectively into `[0, 16)` and realize successive 90° rotations,
with the geometric quarter-turn composing to the identity after four
steps. -/
theorem C4 {c : Context} (h0 : 0 ≤ c.curr.rotate) (h1 : c.curr.rotate < 4)
    (hf1 : c.FirstFit = true) (hf2 : c.stepCW.FirstFit = true)
    (hf3 : c.stepCW.stepCW.FirstFit = true)
    (hf4 : c.stepCW.stepCW.stepCW.FirstFit = true) :
    c.fourCW = some c.stepCW.stepCW.stepCW.stepCW ∧
    c.stepCW.stepCW.stepCW.stepCW.curr.rotate = c.curr.rotate ∧
    c.stepCW.stepCW.stepCW.stepCW.curr.col = c.curr.col ∧
    (∀ r : Fin 4, ∀ p q : Fin 4 × Fin 4,
      RotateIndex4x4 ((p.1 : ℕ) : ℤ) ((p.2 : ℕ) : ℤ) ((r : ℕ) : ℤ) =
        RotateIndex4x4 ((q.1 : ℕ) : ℤ) ((q.2 : ℕ) : ℤ) ((r : ℕ) : ℤ) → p = q) ∧
    (∀ r : ℕ, r < 4 → ∀ x : ℕ, x < 4 → ∀ y : ℕ, y < 4 →
      0 ≤ RotateIndex4x4 x y r ∧ RotateIndex4x4 x y r < 16) ∧
    (∀ r : ℕ, r < 4 → ∀ x : ℕ, x < 4 → ∀ y : ℕ, y < 4 →
      RotateIndex4x4 x y ((r : ℤ) + 1) =
        RotateIndex4x4 (rot90 (x, y)).1 (rot90 (x, y)).2 r) ∧
    (∀ x : ℕ, x < 4 → ∀ y : ℕ, y < 4 →
      rot90 (rot90 (rot90 (rot90 (x, y)))) = ((x : ℤ), (y : ℤ))) := by
  have hq : c.curr.rotate = 0 ∨ c.curr.rotate = 1 ∨ c.curr.rotate = 2 ∨
      c.curr.rotate = 3 := by omega
  refine ⟨?_, ?_, rfl, by decide, by decide, by decide, by decide⟩
  · have r1 := rotateTo_firstFit hf1
    have r2 := rotateTo_firstFit hf2
    have r3 := rotateTo_firstFit hf3
    have r4 := rotateTo_firstFit hf4
    simp only [Context.fourCW, r1, Option.some_bind, r2, r3, r4]
  · have e : c.stepCW.stepCW.stepCW.stepCW.curr.rotate =
        (((((c.curr.rotate + 1).tmod 4 + 1).tmod 4 + 1).tmod 4 + 1).tmod 4) := rfl
    rw [e]
    rcases hq with hq2 | hq2 | hq2 | hq2 <;> rw [hq2] <;> decide

/-- C4 counterexample: from `cexC4` the first clockwise rotation's three
probes are all blocked at the 90° orientation and the retry advances to
the 180° orientation instead, so four clockwise rotations end at
rotation 1, not at the original rotation 0. -/
theorem C4_cex :
    cexC4.curr.rotate = 0 ∧
    ((cexC4.fourCW).map fun c2 => c2.curr.rotate) = some 1 :=
  ⟨rfl, rfl⟩

/-- C4 witness: at `wC4` all four clockwise rotations fit at their first
probe and restore the piece's rotation. -/
theorem C4_witness :
    wC4.fourCW = some wC4.stepCW.stepCW.stepCW.stepCW ∧
    wC4.stepCW.stepCW.stepCW.stepCW.curr.rotate = wC4.curr.rotate := by
  have h := C4 (show (0:ℤ) ≤ wC4.curr.rotate by decide)
    (show wC4.curr.rotate < 4 by decide) (by decide) (by decide) (by decide) (by decide)
  exact ⟨h.1, h.2.1⟩

/-- C5: Corrected.  A `MoveLeft` from column 0 is rejected — with the
piece unchanged — whenever the piece occupies a cell in local column 0 of
its 4×4 frame, since that cell would land at board column `-1`.  The
rejection is not limited to that case (a move is also reverted when a
target cell holds a locked cell), but the claimed unconditional rejection
at column 0 is false: a piece whose occupied cells avoid local column 0,
such as the O-piece, moves to column `-1` when its target cells are free
(see the counterexample).  Every valid piece occupies exactly 4 cells. -/
theorem C5 {c : Context} (h0 : c.curr.col = 0)
    (hl : c.curr.hasLeftColumnCell = true) :
    (c.MoveTo (-1)).curr = c.curr ∧
    (∀ t : Tetromino, 1 ≤ t.type → t.type ≤ 7 → 0 ≤ t.rotate → t.rotate < 4 →
      (maskPairs t).card = 4) := by
  refine ⟨?_, fun t a b d e => maskPairs_card_eq_four a b d e⟩
  simp only [Context.MoveTo]
  split
  · rename_i hcons
    exfalso
    rw [isConsistent_iff] at hcons
    unfold Tetromino.hasLeftColumnCell at hl
    rw [List.any_eq_true] at hl
    obtain ⟨x, hxmem, hxbit⟩ := hl
    rw [List.mem_range] at hxmem
    have h5 := hcons x 0 hxmem (by norm_num) hxbit
    obtain ⟨⟨hb1, hb2, hb3, hb4⟩, _⟩ := h5
    have hb3' : (0:ℤ) ≤ c.curr.col + -1 + ((0:ℕ):ℤ) := hb3
    rw [h0] at hb3'
    norm_num at hb3'
  · show ({ c.curr with col := c.curr.col + -1 - -1 } : Tetromino) = c.curr
    exact tetromino_col_cancel c.curr (-1)

/-- C5 counterexample: the O-piece of `cexC5` sits at column 0 with its
occupied cells in local columns 1–2, and the `MoveLeft` tick moves it to
column `-1`. -/
theorem C5_cex :
    cexC5.curr.col = 0 ∧
    ((cexC5.UpdateL).map fun r => (r.2.1).curr.col) = some (-1) :=
  ⟨rfl, rfl⟩

/-- C5 witness: the I-piece of `wC5` occupies local column 0, so its
`MoveLeft` from column 0 is rejected. -/
theorem C5_witness : wC5.curr.col = 0 ∧ (wC5.MoveTo (-1)).curr = wC5.curr :=
  ⟨rfl, (C5 rfl (by decide)).1⟩

/-- C6: Confirmed.  On every completed tick the score changes by exactly
the scoring-table bonus of the lines cleared that tick (0, 40, 100, 300 or
1200), never decreases, and stays non-negative along reachable play. -/
theorem C6 {c : Context} {res : Bool} {c' : Context} {lines : ℕ}
    (h : c.UpdateL = some (res, c', lines)) :
    c'.score = c.score + kLineMultiplier lines ∧ c.score ≤ c'.score ∧
    (Reachable c → 0 ≤ c'.score) := by
  have h1 := updateL_score h
  have h2 := kLineMultiplier_nonneg lines
  refine ⟨h1, by omega, ?_⟩
  intro hr
  have h3 := (reachable_inv hr).2.2.2.2.2
  omega

/-- C6 witness: the one-line tick of `cexC1` adds exactly the 1-line
bonus. -/
theorem C6_witness :
    wC6result.score = cexC1.score + kLineMultiplier 1 ∧
    cexC1.score ≤ wC6result.score := by
  have h := C6 (rfl : cexC1.UpdateL = some (true, wC6result, 1))
  exact ⟨h.1, h.2.1⟩

/-- C7: Corrected.  When the bottom-to-top scan terminates it returns the
number of initially filled rows, leaves no filled row on the board with
the piece erased, and changes nothing but the board; but the re-test of
the same row index makes the scan loop forever when row 0 is completely
filled, because `ShiftLines(0)` copies no row (see the counterexample). -/
theorem C7 {c : Context} {c' : Context} {n : ℕ} (hc : 0 < c.cols)
    (h : c.CheckLines = some (c', n)) :
    n = (c.Remove).filledCard (c.rows - 1) ∧
    (∀ r : ℤ, 0 ≤ r → r ≤ c.rows - 1 → (c'.Remove).LineFilled r = false) ∧
    c'.rows = c.rows ∧ c'.cols = c.cols ∧ c'.curr = c.curr ∧
    c'.score = c.score := by
  simp only [Context.CheckLines] at h
  rw [Option.map_eq_some'] at h
  obtain ⟨⟨cs, m⟩, hca, hpair⟩ := h
  simp only [Prod.mk.injEq] at hpair
  obtain ⟨hc'eq, hmn⟩ := hpair
  subst hmn
  subst hc'eq
  obtain ⟨s_same, s_count, s_low, s_high⟩ :=
    checkAux_spec (checkFuel c.Remove) c.Remove (c.rows - 1) 0 cs m
      (show (0:ℤ) < (c.Remove).cols from hc) hca
  have s_eq : cs = { c.Remove with field := cs.field } := s_same
  refine ⟨?_, ?_, ?_, ?_, ?_, ?_⟩
  · rw [s_count]
    omega
  · intro r h0 hr
    have hfield : ((cs.Put).Remove).field = eraseF cs.cols cs.curr cs.field := by
      show eraseF cs.cols cs.curr (putF cs.cols cs.curr cs.field) = _
      rw [eraseF_putF_self]
    have hsub : FieldSub ((cs.Put).Remove).field cs.field := by
      rw [hfield]
      exact eraseF_sub _ _ _
    exact lineFilled_mono (show ((cs.Put).Remove).cols = cs.cols from rfl) hsub
      (s_low r h0 hr)
  · have e := congrArg Context.rows s_eq
    exact e
  · have e := congrArg Context.cols s_eq
    exact e
  · have e := congrArg Context.curr s_eq
    exact e
  · have e := congrArg Context.score s_eq
    exact e

/-- C7 counterexample: `cexC7` has its row 0 completely filled, and the
line-clear scan never exits: `CheckAux` fails under every fuel and
`CheckLines` has no result — the C++ loop hangs. -/
theorem C7_cex :
    cexC7.CheckDiverges ∧ cexC7.CheckLines = none ∧
    (cexC7.Remove).LineFilled 0 = true := by
  have h1 : ∀ (n lines : ℕ), CheckAux n cexC7.Remove 1 lines = none := by
    intro n lines
    cases n with
    | zero => rfl
    | succ m =>
      unfold CheckAux
      rw [if_neg (by norm_num), if_neg (by decide)]
      rw [show (1:ℤ) - 1 = 0 from by norm_num]
      exact checkAux_stuck (by decide) m lines
  have h2 : ∀ (n lines : ℕ), CheckAux n cexC7.Remove 2 lines = none := by
    intro n lines
    cases n with
    | zero => rfl
    | succ m =>
      unfold CheckAux
      rw [if_neg (by norm_num), if_neg (by decide)]
      rw [show (2:ℤ) - 1 = 1 from by norm_num]
      exact h1 m lines
  have hdiv : cexC7.CheckDiverges := by
    intro fuel lines
    show CheckAux fuel cexC7.Remove (cexC7.rows - 1) lines = none
    rw [show cexC7.rows - 1 = (2:ℤ) from by decide]
    exact h2 fuel lines
  refine ⟨hdiv, ?_, by decide⟩
  simp only [Context.CheckLines]
  rw [hdiv (checkFuel cexC7.Remove) 0]
  rfl

/-- C7 witness: the two filled bottom rows of `wC7` are counted by the
terminating scan. -/
theorem C7_witness :
    (0:ℤ) < wC7.cols ∧ 2 = (wC7.Remove).filledCard (wC7.rows - 1) :=
  ⟨by decide,
    (C7 (by decide) (rfl : wC7.CheckLines = some (wC7result, 2))).1⟩

/-- C8: Confirmed.  In every reachable engine state a tick clears at most
4 lines, so the scoring lookup indexed by the cleared-lines count stays
within the 5-entry bonus table. -/
theorem C8 {c : Context} {res : Bool} {c' : Context} {lines : ℕ}
    (hr : Reachable c) (h : c.UpdateL = some (res, c', lines)) :
    lines ≤ 4 :=
  (updateL_inv (reachable_inv hr) h).1

/-- C8 witness: the freshly constructed engine `wInit` is reachable and
its first tick clears 0 ≤ 4 lines. -/
theorem C8_witness :
    wInit.UpdateL = some (true, wInitResult, 0) ∧ (0:ℕ) ≤ 4 :=
  ⟨rfl, C8 (Reachable.init 6 5 5 (fun _ => 0) (by norm_num) (by norm_num))
    (rfl : wInit.UpdateL = some (true, wInitResult, 0))⟩

/-- C9: Corrected.  With an unexpired drop timer a `tick(None)` decrements
only the timer provided the board has no filled row (piece erased) and the
top two rows are clear; a filled row left on the board is cleared and
scored by such a tick all the same (see the counterexample). -/
theorem C9 {c : Context} (ht : 0 < c.ticksTillDrop) (hk : c.key = Key.kNone)
    (hnf : c.NoFilledErased = true) (hd : c.PieceDrawn = true)
    (hto : (c.Remove).TopOccupied = false) :
    c.UpdateL = some (true, { c with ticksTillDrop := c.ticksTillDrop - 1 }, 0) := by
  have hg : c.GravityStep = { c with ticksTillDrop := c.ticksTillDrop - 1 } := by
    simp only [Context.GravityStep]
    rw [if_neg (by omega : ¬ c.ticksTillDrop ≤ 0)]
  set c0 : Context := { c with ticksTillDrop := c.ticksTillDrop - 1 } with hc0
  have hh : c0.HandleKey = some c0 := by
    unfold Context.HandleKey
    rw [show c0.key = Key.kNone from hk]
  have hput : (c0.Remove).Put = c0 :=
    put_remove_of_drawn c0 (show c0.PieceDrawn = true from hd)
  have hclean : ∀ r : ℤ, 0 ≤ r → r ≤ c0.rows - 1 →
      (c0.Remove).LineFilled r = false := by
    intro r h0 hr
    have hrr : r ≤ c.rows - 1 := hr
    unfold Context.NoFilledErased at hnf
    rw [List.all_eq_true] at hnf
    have hmem : r.toNat ∈ List.range c.rows.toNat := by
      rw [List.mem_range]
      omega
    have h5 := hnf r.toNat hmem
    rw [Bool.not_eq_true'] at h5
    rw [Int.toNat_of_nonneg h0] at h5
    exact h5
  have hca : CheckAux (checkFuel c0.Remove) c0.Remove (c0.rows - 1) 0 =
      some (c0.Remove, 0) :=
    checkAux_clean (checkFuel c0.Remove) c0.Remove (c0.rows - 1) 0 hclean
      (checkFuel_gt c0.Remove)
  have hcl : c0.CheckLines = some (c0, 0) := by
    simp only [Context.CheckLines]
    rw [hca]
    simp only [Option.map_some']
    rw [hput]
  have hscore : c0.ScoreUp 0 = c0 := by
    show ({ c0 with score := c0.score + kLineMultiplier 0 } : Context) = c0
    rw [show kLineMultiplier 0 = (0:ℤ) from rfl, add_zero]
  have hgo : c0.GameOver = (false, c0) := by
    simp only [Context.GameOver]
    rw [hput]
    rw [show (c0.Remove).TopOccupied = false from hto]
    simp
  simp only [Context.UpdateL]
  rw [hg, hh]
  simp only [Option.some_bind]
  rw [hcl]
  simp only [Option.map_some']
  rw [hscore, hgo]
  rfl

/-- C9 counterexample: `cexC9`'s drop timer has not expired and no key is
pressed, yet the tick clears the filled bottom row and adds 40 to the
score. -/
theorem C9_cex :
    (0:ℤ) < cexC9.ticksTillDrop ∧ cexC9.key = Key.kNone ∧
    ((cexC9.UpdateL).map fun r => ((r.2.1).score, r.2.2)) = some (40, 1) :=
  ⟨by decide, rfl, rfl⟩

/-- C9 witness: from the quiescent state `wC9` a `tick(None)` only
decrements the drop timer. -/
theorem C9_witness :
    wC9.UpdateL = some (true, { wC9 with ticksTillDrop := wC9.ticksTillDrop - 1 }, 0) :=
  C9 (by decide) rfl (by decide) (by decide) (by decide)

/-- C10: Confirmed.  On a tick that reports game over the returned state
has the active piece's cells erased: every footprint cell of the active
piece reads empty, both on the flat field and through `CellAt`. -/
theorem C10 {c : Context} {res : Bool} {c' : Context} {lines : ℕ}
    (h : c.UpdateL = some (res, c', lines)) (hres : res = false) :
    (∀ i : ℤ, FootprintB c'.cols c'.curr i = true → c'.field i = 0) ∧
    (∀ row col : ℤ, FootprintB c'.cols c'.curr (c'.cols * row + col) = true →
      c'.CellAt row col = 0) := by
  have h1 := updateL_pieceErased h hres
  exact ⟨h1, fun row col hfp => h1 _ hfp⟩

/-- C10 witness: `exC10`'s tick reports game over and the piece's former
cell at row 3, column 0 reads empty. -/
theorem C10_witness :
    exC10.UpdateL = some (false, exC10result, 0) ∧ exC10result.CellAt 3 0 = 0 :=
  ⟨rfl, (C10 (rfl : exC10.UpdateL = some (false, exC10result, 0)) rfl).2 3 0
    (by decide)⟩

end Tetris
